import Mathlib

/-!
Verification of the pdf-text-extractor pipeline (cecomp64/pdf-text-extractor).

This file gives a shallow embedding, over `List Char` (Python `str` values),
of the parts of the repository that the frozen claims are about:

* `contains_api_error` — src/pdf_text_extractor/extractor.py lines 14-41,
  the error classifier built from a list of regex patterns searched with
  `re.search(pattern, text, re.IGNORECASE)`;
* the extraction pipeline `extract_pdf_text_with_mode` — extractor.py
  lines 219-379 — including the per-page remote loop, the RuntimeError
  raised on a classified page, the local (spacy) branch with its unbound
  `total_pages` slip, and the final file writes;
* the per-page helpers `extract_text_from_page` (extractor.py 133-212) and
  `extract_text_from_page_gemini` (64-130), whose post-processing and
  exception-to-marker conventions are identical;
* the invisible-text injector `inject_text_to_pdf` — injector.py 8-91 —
  modelled as the list of text-insertion operations it issues per page;
* the batch orchestrator `batch_process` / `estimate_cost` — batch.py —
  modelled as a state transformer on a per-document filesystem record.

Modelling conventions.  Python strings are `List Char`; `re.IGNORECASE` is
modelled by lowercasing the text with `Char.toLower` and writing every
pattern literal lowercase (ASCII case folding; the patterns are ASCII).
`\d` is modelled as `Char.isDigit` and `.` in a pattern as any character
other than a newline, matching Python's default (non-DOTALL) semantics.
Wall-clock timings, network transport, rasterized image bytes and PDF
binary payloads are abstracted: a remote call is an `Except` value (the
exception message or the returned text) supplied by the environment, and
PDF byte strings are opaque `Nat` values.
-/

/-- Chars of the literal segment of regex pattern 1 (lowercased). -/
def chPatPage : List Char :=
  ['e', 'r', 'r', 'o', 'r', ' ', 'e', 'x', 't', 'r', 'a', 'c', 't', 'i', 'n', 'g', ' ', 'p', 'a', 'g', 'e', ' ']

/-- Chars of the inner literal of regex pattern 1 (lowercased). -/
def chPatCode : List Char :=
  ['e', 'r', 'r', 'o', 'r', ' ', 'c', 'o', 'd', 'e', ':']

/-- Chars of the literal part of regex pattern 2 (lowercased). -/
def chPatCodeSp : List Char :=
  ['e', 'r', 'r', 'o', 'r', ' ', 'c', 'o', 'd', 'e', ':', ' ']

/-- Plain error literal: invalid request. -/
def chInvalidReq : List Char :=
  ['i', 'n', 'v', 'a', 'l', 'i', 'd', '_', 'r', 'e', 'q', 'u', 'e', 's', 't', '_', 'e', 'r', 'r', 'o', 'r']

/-- Plain error literal: authentication. -/
def chAuth : List Char :=
  ['a', 'u', 't', 'h', 'e', 'n', 't', 'i', 'c', 'a', 't', 'i', 'o', 'n', '_', 'e', 'r', 'r', 'o', 'r']

/-- Plain error literal: permission. -/
def chPerm : List Char :=
  ['p', 'e', 'r', 'm', 'i', 's', 's', 'i', 'o', 'n', '_', 'e', 'r', 'r', 'o', 'r']

/-- Plain error literal: rate limit. -/
def chRateLimit : List Char :=
  ['r', 'a', 't', 'e', '_', 'l', 'i', 'm', 'i', 't', '_', 'e', 'r', 'r', 'o', 'r']

/-- Plain error literal: generic api error. -/
def chApiErr : List Char :=
  ['a', 'p', 'i', '_', 'e', 'r', 'r', 'o', 'r']

/-- Plain error literal: overloaded. -/
def chOverloaded : List Char :=
  ['o', 'v', 'e', 'r', 'l', 'o', 'a', 'd', 'e', 'd', '_', 'e', 'r', 'r', 'o', 'r']

/-- Plain error literal: low credit balance. -/
def chCredit : List Char :=
  ['c', 'r', 'e', 'd', 'i', 't', ' ', 'b', 'a', 'l', 'a', 'n', 'c', 'e', ' ', 'i', 's', ' ', 't', 'o', 'o', ' ', 'l', 'o', 'w']

/-- Plain error literal: full low-credit sentence (lowercased). -/
def chCreditLong : List Char :=
  ['y', 'o', 'u', 'r', ' ', 'c', 'r', 'e', 'd', 'i', 't', ' ', 'b', 'a', 'l', 'a', 'n', 'c', 'e', ' ', 'i', 's', ' ', 't', 'o', 'o', ' ', 'l', 'o', 'w', ' ', 't', 'o', ' ', 'a', 'c', 'c', 'e', 's', 's', ' ', 't', 'h', 'e', ' ', 'a', 'n', 't', 'h', 'r', 'o', 'p', 'i', 'c', ' ', 'a', 'p', 'i']

/-- Chars of the page marker head written by the extractor. -/
def chMarkPre : List Char :=
  ['=', '=', '=', ' ', 'P', 'A', 'G', 'E', ' ']

/-- Chars of the page marker tail. -/
def chMarkPost : List Char :=
  [' ', '=', '=', '=']

/-- Chars of the whole-document marker of local mode. -/
def chDocMark : List Char :=
  ['=', '=', '=', ' ', 'D', 'O', 'C', 'U', 'M', 'E', 'N', 'T', ' ', '=', '=', '=']

/-- Chars of the Text-colon prefix stripped from backend replies. -/
def chTextColon : List Char :=
  ['T', 'e', 'x', 't', ':']

/-- Chars of the head of the per-page exception marker. -/
def chExcPre : List Char :=
  ['[', 'E', 'r', 'r', 'o', 'r', ' ', 'e', 'x', 't', 'r', 'a', 'c', 't', 'i', 'n', 'g', ' ', 'p', 'a', 'g', 'e', ' ']

/-- Colon and space. -/
def chColSp : List Char :=
  [':', ' ']

/-- Chars of the head of the local-mode exception marker. -/
def chSpacyExcPre : List Char :=
  ['[', 'E', 'r', 'r', 'o', 'r', ' ', 'e', 'x', 't', 'r', 'a', 'c', 't', 'i', 'n', 'g', ' ', 't', 'e', 'x', 't', ':', ' ']

/-- Chars of the head of the RuntimeError message raised on a classified page. -/
def chRunPre : List Char :=
  ['A', 'P', 'I', ' ', 'e', 'r', 'r', 'o', 'r', ' ', 'd', 'e', 't', 'e', 'c', 't', 'e', 'd', ' ', 'o', 'n', ' ', 'p', 'a', 'g', 'e', ' ']

/-- Chars of the middle of the RuntimeError message. -/
def chRunMid : List Char :=
  ['.', ' ', 'S', 't', 'o', 'p', 'p', 'i', 'n', 'g', ' ', 'e', 'x', 't', 'r', 'a', 'c', 't', 'i', 'o', 'n', ' ', 't', 'o', ' ', 'p', 'r', 'e', 'v', 'e', 'n', 't', ' ', 'i', 'n', 'c', 'o', 'm', 'p', 'l', 'e', 't', 'e', ' ', 'r', 'e', 's', 'u', 'l', 't', 's', '.', ' ', 'E', 'r', 'r', 'o', 'r', ':', ' ']

/-- Lowercase a Python string, modelling matching under re.IGNORECASE. -/
def lc (l : List Char) : List Char := l.map Char.toLower

/-- Strip a literal from the front of a list: returns the remainder when the
list starts with the literal, none otherwise. -/
def stripLit : List Char → List Char → Option (List Char)
  | [], l => some l
  | _ :: _, [] => none
  | p :: ps, c :: cs => if c = p then stripLit ps cs else none

/-- Does some suffix of the list satisfy the test?  This is the scan that
models an unanchored regex search over start positions. -/
def anySuffix (f : List Char → Bool) : List Char → Bool
  | [] => f []
  | c :: cs => f (c :: cs) || anySuffix f cs

/-- Boolean prefix test via stripLit. -/
def prefB (p l : List Char) : Bool := (stripLit p l).isSome

/-- Boolean contiguous-substring test. -/
def infxB (p l : List Char) : Bool := anySuffix (fun t => prefB p t) l

/-- Boolean test that a character is not a newline (regex dot in non-DOTALL). -/
def notNl (c : Char) : Bool := !(c = '\n')

/-- Matcher for one start position of pattern 2, r-quote Error code colon digits:
the literal (lowercased) followed by at least one digit. -/
def hitCodeNum (t : List Char) : Bool :=
  match stripLit chPatCodeSp t with
  | some (c :: _) => c.isDigit
  | _ => false

/-- Search for pattern 2 anywhere in the (lowercased) text. -/
def matchCodeNum (z : List Char) : Bool := anySuffix hitCodeNum z

/-- Inner search of pattern 1: somewhere in the given single line, the literal
error-code-colon followed, later in the line, by a closing bracket. -/
def hitInner (u : List Char) : Bool :=
  match stripLit chPatCode u with
  | some v => v.any (fun c => c = ']')
  | none => false

/-- Step of pattern 1 after the digits: a colon, then the rest of the current
line (dot does not match newline) searched for the error-code literal and a
closing bracket. -/
def hitColon : List Char → Bool
  | c :: rest => if c = ':' then anySuffix hitInner (rest.takeWhile notNl) else false
  | [] => false

/-- Step of pattern 1 after the bracketed literal: one or more digits, then
hitColon on what follows the digit run (the regex one-or-more-digits is
greedy, and since a digit cannot match the colon, greedy matching of the
maximal digit run is equivalent to backtracking). -/
def hitDigits (t2 : List Char) : Bool :=
  match t2 with
  | d :: _ => d.isDigit && hitColon (t2.dropWhile Char.isDigit)
  | [] => false

/-- Matcher for one start position of pattern 1, the bracketed extraction-error
marker regex: an opening bracket, the page literal, one or more digits, a
colon, then (within the same line) the error-code literal and a closing
bracket. -/
def hitBracket (t : List Char) : Bool :=
  match stripLit ('[' :: chPatPage) t with
  | some t2 => hitDigits t2
  | none => false

/-- Search for pattern 1 anywhere in the (lowercased) text. -/
def matchBracket (z : List Char) : Bool := anySuffix hitBracket z

/-- The list of plain substring patterns of contains_api_error (all lowercased;
patterns 3-10 of the Python list are literal regexes, so re.search on them is
a case-insensitive substring test). -/
def plainPatterns : List (List Char) :=
  [chInvalidReq, chAuth, chPerm, chRateLimit, chApiErr, chOverloaded, chCredit, chCreditLong]

/-- Search for any plain literal pattern in the (lowercased) text. -/
def matchPlain (z : List Char) : Bool := plainPatterns.any (fun p => infxB p z)

/-- Model of contains_api_error (extractor.py lines 14-41): empty text is never
an error; otherwise each pattern of the list is searched case-insensitively
(here: over the lowercased text). -/
def contains_api_error (s : List Char) : Bool :=
  if s = [] then false
  else matchBracket (lc s) || matchCodeNum (lc s) || matchPlain (lc s)

/-- PatInstance w says that the string w is, as a whole, a complete match of
one of the classifier's patterns: a plain literal, the error-code literal
followed by a digit, or a full bracketed extraction-error marker whose
wildcard segments stay on one line. -/
inductive PatInstance : List Char → Prop
  | plain (p : List Char) (hp : p ∈ plainPatterns) : PatInstance p
  | codeNum (d : Char) (hd : d.isDigit = true) : PatInstance (chPatCodeSp ++ [d])
  | bracket (ds m1 m2 : List Char) (h0 : ds ≠ [])
      (h1 : ∀ c ∈ ds, c.isDigit = true)
      (h2 : ∀ c ∈ m1, c ≠ '\n') (h3 : ∀ c ∈ m2, c ≠ '\n') :
      PatInstance ('[' :: chPatPage ++ ds ++ ':' :: (m1 ++ chPatCode ++ m2 ++ [']']))

theorem stripLit_eq_some {p : List Char} : ∀ {l r : List Char},
    stripLit p l = some r ↔ l = p ++ r := by
  induction p with
  | nil => intro l r; simp [stripLit]
  | cons c cs ih =>
    intro l r
    cases l with
    | nil => simp [stripLit]
    | cons x xs =>
      by_cases hx : x = c
      · subst hx
        simp only [stripLit, if_pos rfl, List.cons_append, List.cons.injEq, true_and]
        exact ih
      · simp [stripLit, hx]

theorem anySuffix_eq_true {f : List Char → Bool} : ∀ {l : List Char},
    anySuffix f l = true ↔ ∃ t, t <:+ l ∧ f t = true := by
  intro l
  induction l with
  | nil =>
    simp only [anySuffix]
    constructor
    · intro h; exact ⟨[], List.nil_suffix, h⟩
    · rintro ⟨t, ht, hf⟩
      rcases List.suffix_nil.mp ht with rfl
      exact hf
  | cons c cs ih =>
    simp only [anySuffix, Bool.or_eq_true, ih]
    constructor
    · rintro (h | ⟨t, ht, hf⟩)
      · exact ⟨c :: cs, List.suffix_refl _, h⟩
      · exact ⟨t, ht.trans (List.suffix_cons _ _), hf⟩
    · rintro ⟨t, ht, hf⟩
      rcases List.suffix_cons_iff.mp ht with rfl | ht'
      · exact Or.inl hf
      · exact Or.inr ⟨t, ht', hf⟩

theorem prefB_eq_true {p l : List Char} : prefB p l = true ↔ p <+: l := by
  unfold prefB
  rcases h : stripLit p l with _ | r
  · simp only [Option.isSome_none, Bool.false_eq_true, false_iff]
    rintro ⟨r, rfl⟩
    rw [stripLit_eq_some.mpr rfl] at h
    cases h
  · simp only [Option.isSome_some, true_iff]
    exact ⟨r, (stripLit_eq_some.mp h).symm⟩

theorem infxB_eq_true {p l : List Char} : infxB p l = true ↔ p <:+: l := by
  unfold infxB
  rw [anySuffix_eq_true]
  constructor
  · rintro ⟨t, ⟨a, rfl⟩, hf⟩
    rcases prefB_eq_true.mp hf with ⟨b, rfl⟩
    exact ⟨a, b, by simp⟩
  · rintro ⟨a, b, rfl⟩
    exact ⟨p ++ b, ⟨a, by simp⟩, prefB_eq_true.mpr ⟨b, rfl⟩⟩

theorem infx_trans {a b c : List Char} (h1 : a <:+: b) (h2 : b <:+: c) : a <:+: c := by
  rcases h1 with ⟨p, q, rfl⟩
  rcases h2 with ⟨p', q', rfl⟩
  exact ⟨p' ++ p, q ++ q', by simp⟩

theorem infx_map_lc {t s : List Char} (h : t <:+: s) : lc t <:+: lc s := by
  rcases h with ⟨a, b, rfl⟩
  exact ⟨lc a, lc b, by simp [lc]⟩

theorem takeWhile_app_all {p : Char → Bool} : ∀ {xs r : List Char},
    (∀ c ∈ xs, p c = true) → List.takeWhile p (xs ++ r) = xs ++ List.takeWhile p r := by
  intro xs
  induction xs with
  | nil => intro r _; simp
  | cons c cs ih =>
    intro r h
    have hc : p c = true := h c (by simp)
    simp only [List.cons_append, List.takeWhile_cons, hc, if_true]
    rw [ih (fun x hx => h x (by simp [hx]))]

theorem dropWhile_app_all {p : Char → Bool} : ∀ {xs r : List Char},
    (∀ c ∈ xs, p c = true) → List.dropWhile p (xs ++ r) = List.dropWhile p r := by
  intro xs
  induction xs with
  | nil => intro r _; simp
  | cons c cs ih =>
    intro r h
    have hc : p c = true := h c (by simp)
    simp only [List.cons_append, List.dropWhile_cons, hc, if_true]
    exact ih (fun x hx => h x (by simp [hx]))

theorem isDigit_ne_nl {c : Char} (h : c.isDigit = true) : c ≠ '\n' := by
  intro hc; subst hc; exact absurd h (by decide)

/-- Any complete pattern match contains the letter r and no newline; in
particular it is nonempty. -/
theorem patInstance_props {w : List Char} (h : PatInstance w) :
    'r' ∈ w ∧ '\n' ∉ w := by
  have hplains : ∀ q ∈ plainPatterns, 'r' ∈ q ∧ '\n' ∉ q := by decide
  have hpage : 'r' ∈ chPatPage ∧ '\n' ∉ chPatPage := by decide
  have hcodesp : 'r' ∈ chPatCodeSp ∧ '\n' ∉ chPatCodeSp := by decide
  have hcode : '\n' ∉ chPatCode := by decide
  cases h with
  | plain q hq => exact hplains _ hq
  | codeNum d hd =>
    refine ⟨List.mem_append_left [d] hcodesp.1, ?_⟩
    intro hmem
    rw [List.mem_append] at hmem
    rcases hmem with h1 | h1
    · exact hcodesp.2 h1
    · exact isDigit_ne_nl hd (List.mem_singleton.mp h1).symm
  | bracket ds m1 m2 h0 h1 h2 h3 =>
    constructor
    · exact List.mem_append_left _ (List.mem_append_left ds (List.mem_cons_of_mem '[' hpage.1))
    · intro hmem
      rw [List.mem_append] at hmem
      rcases hmem with hmem | hmem
      · rw [List.mem_append] at hmem
        rcases hmem with hmem | h'
        · rw [List.mem_cons] at hmem
          rcases hmem with h' | h'
          · exact absurd h' (by decide)
          · exact hpage.2 h'
        · exact isDigit_ne_nl (h1 _ h') rfl
      rw [List.mem_cons] at hmem
      rcases hmem with h' | hmem
      · exact absurd h' (by decide)
      rw [List.mem_append] at hmem
      rcases hmem with hmem | h'
      · rw [List.mem_append] at hmem
        rcases hmem with hmem | h'
        · rw [List.mem_append] at hmem
          rcases hmem with h' | h'
          · exact h2 _ h' rfl
          · exact hcode h'
        · exact h3 _ h' rfl
      · exact absurd (List.mem_singleton.mp h') (by decide)

theorem matchPlain_iff {z : List Char} :
    matchPlain z = true ↔ ∃ p ∈ plainPatterns, p <:+: z := by
  unfold matchPlain
  rw [List.any_eq_true]
  constructor
  · rintro ⟨p, hp, hf⟩; exact ⟨p, hp, infxB_eq_true.mp hf⟩
  · rintro ⟨p, hp, hf⟩; exact ⟨p, hp, infxB_eq_true.mpr hf⟩

theorem matchCodeNum_iff {z : List Char} :
    matchCodeNum z = true ↔ ∃ d, d.isDigit = true ∧ (chPatCodeSp ++ [d]) <:+: z := by
  unfold matchCodeNum
  rw [anySuffix_eq_true]
  constructor
  · rintro ⟨t, ⟨a, rfl⟩, hf⟩
    unfold hitCodeNum at hf
    rcases h : stripLit chPatCodeSp t with _ | r
    · rw [h] at hf; cases hf
    · rw [h] at hf
      cases r with
      | nil => cases hf
      | cons d rest =>
        have ht := stripLit_eq_some.mp h
        exact ⟨d, hf, ⟨a, rest, by simp [ht]⟩⟩
  · rintro ⟨d, hd, ⟨a, b, rfl⟩⟩
    refine ⟨chPatCodeSp ++ d :: b, ⟨a, by simp⟩, ?_⟩
    unfold hitCodeNum
    rw [stripLit_eq_some.mpr rfl]
    exact hd

theorem hitInner_iff {u : List Char} :
    hitInner u = true ↔ ∃ v, u = chPatCode ++ v ∧ ']' ∈ v := by
  unfold hitInner
  rcases h : stripLit chPatCode u with _ | v
  · simp only [Bool.false_eq_true, false_iff]
    rintro ⟨v, rfl, _⟩
    rw [stripLit_eq_some.mpr rfl] at h
    cases h
  · rw [List.any_eq_true]
    constructor
    · rintro ⟨x, hx, he⟩
      have : x = ']' := by simpa using he
      subst this
      exact ⟨v, stripLit_eq_some.mp h, hx⟩
    · rintro ⟨v', hv', hm⟩
      have := (stripLit_eq_some.mp h).symm.trans hv'
      have hv : v = v' := by
        have := List.append_cancel_left this
        exact this
      subst hv
      exact ⟨']', hm, by simp⟩

theorem notNl_iff {c : Char} : notNl c = true ↔ c ≠ '\n' := by
  simp [notNl]

theorem hitColon_iff {l : List Char} :
    hitColon l = true ↔
      ∃ rest, l = ':' :: rest ∧ anySuffix hitInner (rest.takeWhile notNl) = true := by
  cases l with
  | nil => simp [hitColon]
  | cons c rest =>
    by_cases hc : c = ':'
    · subst hc
      simp only [hitColon, if_pos rfl]
      constructor
      · intro h; exact ⟨rest, rfl, h⟩
      · rintro ⟨r, hr, h⟩
        cases hr
        exact h
    · simp only [hitColon, if_neg hc, Bool.false_eq_true, false_iff]
      rintro ⟨r, hr, _⟩
      cases hr
      exact hc rfl

theorem hitDigits_iff {t2 : List Char} :
    hitDigits t2 = true ↔
      ∃ ds rest, ds ≠ [] ∧ (∀ c ∈ ds, c.isDigit = true) ∧ t2 = ds ++ ':' :: rest ∧
        anySuffix hitInner (rest.takeWhile notNl) = true := by
  constructor
  · intro h
    cases t2 with
    | nil => cases h
    | cons d tl =>
      simp only [hitDigits, Bool.and_eq_true] at h
      rcases h with ⟨hd, hcol⟩
      rcases hitColon_iff.mp hcol with ⟨rest, hrest, hs⟩
      refine ⟨(d :: tl).takeWhile Char.isDigit, rest, ?_, ?_, ?_, hs⟩
      · simp [List.takeWhile_cons, hd]
      · intro c hc; exact List.mem_takeWhile_imp hc
      · conv_lhs => rw [← List.takeWhile_append_dropWhile Char.isDigit (d :: tl)]
        rw [hrest]
  · rintro ⟨ds, rest, h0, h1, rfl, hs⟩
    cases ds with
    | nil => exact absurd rfl h0
    | cons d ds' =>
      have hd : d.isDigit = true := h1 d (by simp)
      simp only [List.cons_append, hitDigits, hd, Bool.true_and]
      have hdw : List.dropWhile Char.isDigit (d :: (ds' ++ ':' :: rest))
          = ':' :: rest := by
        have h' : List.dropWhile Char.isDigit ((d :: ds') ++ ':' :: rest)
            = List.dropWhile Char.isDigit (':' :: rest) := dropWhile_app_all h1
        rw [List.cons_append] at h'
        rw [h', List.dropWhile_cons]
        simp
      rw [hdw]
      rw [hitColon_iff]
      exact ⟨rest, rfl, hs⟩

theorem matchBracket_iff {z : List Char} :
    matchBracket z = true ↔
      ∃ ds m1 m2, ds ≠ [] ∧ (∀ c ∈ ds, c.isDigit = true) ∧
        (∀ c ∈ m1, c ≠ '\n') ∧ (∀ c ∈ m2, c ≠ '\n') ∧
        ('[' :: chPatPage ++ ds ++ ':' :: (m1 ++ chPatCode ++ m2 ++ [']'])) <:+: z := by
  unfold matchBracket
  rw [anySuffix_eq_true]
  constructor
  · rintro ⟨t, ⟨a, ha⟩, hf⟩
    unfold hitBracket at hf
    rcases hsl : stripLit ('[' :: chPatPage) t with _ | t2
    · rw [hsl] at hf; cases hf
    rw [hsl] at hf
    rcases hitDigits_iff.mp hf with ⟨ds, rest, h0, h1, ht2, hs⟩
    rcases anySuffix_eq_true.mp hs with ⟨u, ⟨m1, hm1⟩, hu⟩
    rcases hitInner_iff.mp hu with ⟨v, huv, hv⟩
    rcases List.append_of_mem hv with ⟨m2, v2, hvm⟩
    have hm1nl : ∀ c ∈ m1, c ≠ '\n' := by
      intro c hc
      have : c ∈ rest.takeWhile notNl := by
        rw [← hm1]; exact List.mem_append_left _ hc
      exact notNl_iff.mp (List.mem_takeWhile_imp this)
    have hm2nl : ∀ c ∈ m2, c ≠ '\n' := by
      intro c hc
      have hcv : c ∈ v := by rw [hvm]; exact List.mem_append_left _ hc
      have hcu : c ∈ u := by rw [huv]; exact List.mem_append_right _ hcv
      have : c ∈ rest.takeWhile notNl := by
        rw [← hm1]; exact List.mem_append_right _ hcu
      exact notNl_iff.mp (List.mem_takeWhile_imp this)
    refine ⟨ds, m1, m2, h0, h1, hm1nl, hm2nl,
      ⟨a, v2 ++ rest.dropWhile notNl, ?_⟩⟩
    have ht : t = ('[' :: chPatPage) ++ t2 := stripLit_eq_some.mp hsl
    have hrest : rest = m1 ++ chPatCode ++ m2 ++ ']' :: (v2 ++ rest.dropWhile notNl) := by
      conv_lhs => rw [← List.takeWhile_append_dropWhile notNl rest]
      rw [← hm1, huv, hvm]
      simp
    rw [← ha, ht, ht2]
    conv_rhs => rw [hrest]
    simp
  · rintro ⟨ds, m1, m2, h0, h1, h2, h3, ⟨a, b, hab⟩⟩
    refine ⟨('[' :: chPatPage) ++ (ds ++ ':' :: (m1 ++ chPatCode ++ m2 ++ ']' :: b)), ⟨a, ?_⟩, ?_⟩
    · rw [← hab]; simp
    · unfold hitBracket
      rw [stripLit_eq_some.mpr rfl]
      rw [hitDigits_iff]
      refine ⟨ds, m1 ++ chPatCode ++ m2 ++ ']' :: b, h0, h1, rfl, ?_⟩
      have hpre : List.takeWhile notNl (m1 ++ chPatCode ++ m2 ++ ']' :: b)
          = (m1 ++ chPatCode ++ m2 ++ [']']) ++ List.takeWhile notNl b := by
        have hall : ∀ c ∈ m1 ++ chPatCode ++ m2 ++ [']'], notNl c = true := by
          intro c hc
          rw [notNl_iff]
          rcases List.mem_append.mp hc with hc' | hc'
          · rcases List.mem_append.mp hc' with hc'' | hc''
            · rcases List.mem_append.mp hc'' with h' | h'
              · exact h2 _ h'
              · intro he; subst he; exact absurd h' (by decide)
            · exact h3 _ hc''
          · rcases List.mem_singleton.mp hc' with rfl
            decide
        have : (m1 ++ chPatCode ++ m2 ++ ']' :: b)
            = (m1 ++ chPatCode ++ m2 ++ [']']) ++ b := by simp
        rw [this, takeWhile_app_all hall]
      rw [hpre]
      rw [anySuffix_eq_true]
      refine ⟨chPatCode ++ (m2 ++ ']' :: List.takeWhile notNl b), ⟨m1, by simp⟩, ?_⟩
      rw [hitInner_iff]
      exact ⟨m2 ++ ']' :: List.takeWhile notNl b, rfl,
        List.mem_append_right _ (List.mem_cons_self _ _)⟩

theorem patInstance_ne_nil {w : List Char} (h : PatInstance w) : w ≠ [] := by
  intro he
  subst he
  exact absurd (patInstance_props h).1 (by simp)

/-- Characterization of the classifier: contains_api_error holds exactly when a
complete pattern instance occurs as a contiguous substring of the lowercased
text.  (The empty-text guard of the Python code is absorbed: an instance is
nonempty, so no instance is a substring of the empty string.) -/
theorem contains_api_error_iff {s : List Char} :
    contains_api_error s = true ↔ ∃ w, PatInstance w ∧ w <:+: lc s := by
  by_cases hs : s = []
  · subst hs
    constructor
    · intro h; exact absurd h (by decide)
    · rintro ⟨w, hw, ⟨a, b, hab⟩⟩
      have hab' : a ++ w ++ b = [] := hab
      rcases List.append_eq_nil.mp hab' with ⟨hab'', _⟩
      rcases List.append_eq_nil.mp hab'' with ⟨_, hwn⟩
      exact absurd hwn (patInstance_ne_nil hw)
  · have hval : contains_api_error s
        = (matchBracket (lc s) || matchCodeNum (lc s) || matchPlain (lc s)) := by
      unfold contains_api_error
      rw [if_neg hs]
    rw [hval]
    constructor
    · intro h
      rcases Bool.or_eq_true_iff.mp h with h' | hp
      · rcases Bool.or_eq_true_iff.mp h' with hb | hc
        · rcases matchBracket_iff.mp hb with ⟨ds, m1, m2, h0, h1, h2, h3, hinf⟩
          exact ⟨_, PatInstance.bracket ds m1 m2 h0 h1 h2 h3, hinf⟩
        · rcases matchCodeNum_iff.mp hc with ⟨d, hd, hinf⟩
          exact ⟨_, PatInstance.codeNum d hd, hinf⟩
      · rcases matchPlain_iff.mp hp with ⟨p, hp', hinf⟩
        exact ⟨_, PatInstance.plain p hp', hinf⟩
    · rintro ⟨w, hw, hinf⟩
      cases hw with
      | plain q hq =>
        exact Bool.or_eq_true_iff.mpr (Or.inr (matchPlain_iff.mpr ⟨_, hq, hinf⟩))
      | codeNum d hd =>
        exact Bool.or_eq_true_iff.mpr (Or.inl (Bool.or_eq_true_iff.mpr
          (Or.inr (matchCodeNum_iff.mpr ⟨d, hd, hinf⟩))))
      | bracket ds m1 m2 h0 h1 h2 h3 =>
        exact Bool.or_eq_true_iff.mpr (Or.inl (Bool.or_eq_true_iff.mpr
          (Or.inl (matchBracket_iff.mpr ⟨ds, m1, m2, h0, h1, h2, h3, hinf⟩))))

/-- Monotonicity of the classifier under superstrings: every pattern is an
unanchored substring search, so a hit survives arbitrary context. -/
theorem contains_api_error_mono {t s : List Char}
    (h : contains_api_error t = true) (hts : t <:+: s) :
    contains_api_error s = true := by
  rcases contains_api_error_iff.mp h with ⟨w, hw, hinf⟩
  exact contains_api_error_iff.mpr ⟨w, hw, infx_trans hinf (infx_map_lc hts)⟩

theorem pref_cons {l s : List Char} (h : l <+: s) (c : Char) : c :: l <+: c :: s := by
  rcases h with ⟨t, rfl⟩
  exact ⟨t, rfl⟩

/-- Split a string at newline characters (the lines of the string; used to
reason about which patterns can match across page boundaries). -/
def splitNl : List Char → List (List Char)
  | [] => [[]]
  | c :: cs =>
    if c = '\n' then [] :: splitNl cs
    else
      match splitNl cs with
      | l :: ls => (c :: l) :: ls
      | [] => [[c]]

theorem splitNl_cons_nl (cs : List Char) : splitNl ('\n' :: cs) = [] :: splitNl cs := by
  cases cs <;> rfl

theorem splitNl_ne_nil {s : List Char} : splitNl s ≠ [] := by
  cases s with
  | nil => simp [splitNl]
  | cons c cs =>
    unfold splitNl
    by_cases hc : c = '\n'
    · simp [hc]
    · rw [if_neg hc]
      rcases splitNl cs with _ | ⟨l, ls⟩ <;> simp

theorem splitNl_cons_other {c : Char} (hc : c ≠ '\n') {cs l : List Char}
    {ls : List (List Char)} (h : splitNl cs = l :: ls) :
    splitNl (c :: cs) = (c :: l) :: ls := by
  unfold splitNl
  rw [if_neg hc, h]

theorem splitNl_append_nl : ∀ (a b : List Char),
    splitNl (a ++ '\n' :: b) = splitNl a ++ splitNl b := by
  intro a
  induction a with
  | nil => intro b; simp [splitNl_cons_nl, splitNl]
  | cons c cs ih =>
    intro b
    rw [List.cons_append]
    by_cases hc : c = '\n'
    · subst hc
      rw [splitNl_cons_nl, splitNl_cons_nl, ih]
      rfl
    · rcases h : splitNl cs with _ | ⟨l, ls⟩
      · exact absurd h splitNl_ne_nil
      · have h2 : splitNl (cs ++ '\n' :: b) = l :: (ls ++ splitNl b) := by
          rw [ih, h]
          rfl
        rw [splitNl_cons_other hc h2, splitNl_cons_other hc h]
        rfl

theorem splitNl_head_pref : ∀ {s l : List Char} {ls : List (List Char)},
    splitNl s = l :: ls → l <+: s := by
  intro s
  induction s with
  | nil =>
    intro l ls h
    simp only [splitNl, List.cons.injEq] at h
    rcases h with ⟨rfl, _⟩
    exact List.nil_prefix
  | cons c cs ih =>
    intro l ls h
    by_cases hc : c = '\n'
    · subst hc
      rw [splitNl_cons_nl] at h
      simp only [List.cons.injEq] at h
      rcases h with ⟨rfl, _⟩
      exact List.nil_prefix
    · rcases h' : splitNl cs with _ | ⟨l0, ls0⟩
      · exact absurd h' splitNl_ne_nil
      · rw [splitNl_cons_other hc h'] at h
        simp only [List.cons.injEq] at h
        rcases h with ⟨rfl, _⟩
        exact pref_cons (ih h') c

theorem splitNl_mem_sub : ∀ {s u : List Char}, u ∈ splitNl s → u <:+: s := by
  intro s
  induction s with
  | nil =>
    intro u hu
    simp only [splitNl, List.mem_singleton] at hu
    subst hu
    exact ⟨[], [], rfl⟩
  | cons c cs ih =>
    intro u hu
    by_cases hc : c = '\n'
    · subst hc
      rw [splitNl_cons_nl] at hu
      rcases List.mem_cons.mp hu with rfl | hu'
      · exact ⟨[], '\n' :: cs, rfl⟩
      · rcases ih hu' with ⟨a, b, hab⟩
        exact ⟨'\n' :: a, b, by rw [← hab]; simp⟩
    · rcases h' : splitNl cs with _ | ⟨l0, ls0⟩
      · exact absurd h' splitNl_ne_nil
      · rw [splitNl_cons_other hc h'] at hu
        rcases List.mem_cons.mp hu with rfl | hu'
        · rcases splitNl_head_pref h' with ⟨b, hb⟩
          exact ⟨[], b, by simp [← hb]⟩
        · rcases ih (h' ▸ List.mem_cons_of_mem l0 hu') with ⟨a, b, hab⟩
          exact ⟨c :: a, b, by rw [← hab]; simp⟩

theorem nlfree_splitNl : ∀ {w : List Char}, (∀ c ∈ w, c ≠ '\n') → splitNl w = [w] := by
  intro w
  induction w with
  | nil => intro _; rfl
  | cons c cs ih =>
    intro h
    exact splitNl_cons_other (h c (by simp)) (ih (fun x hx => h x (by simp [hx])))

theorem nlfree_prefix_head : ∀ {w s l : List Char} {ls : List (List Char)},
    (∀ c ∈ w, c ≠ '\n') → w <+: s → splitNl s = l :: ls → w <+: l := by
  intro w
  induction w with
  | nil => intro s l ls _ _ _; exact List.nil_prefix
  | cons c w' ih =>
    intro s l ls hw hp hs
    rcases hp with ⟨b, hb⟩
    rw [← hb, List.cons_append] at hs
    rcases h' : splitNl (w' ++ b) with _ | ⟨l0, ls0⟩
    · exact absurd h' splitNl_ne_nil
    rw [splitNl_cons_other (hw c (by simp)) h'] at hs
    simp only [List.cons.injEq] at hs
    rcases hs with ⟨rfl, _⟩
    exact pref_cons (ih (fun x hx => hw x (by simp [hx])) ⟨b, rfl⟩ h') c

/-- A newline-free substring of s is a substring of one of the lines of s. -/
theorem infix_splitNl : ∀ {s w : List Char}, (∀ c ∈ w, c ≠ '\n') → w <:+: s →
    ∃ u ∈ splitNl s, w <:+: u := by
  intro s
  induction s with
  | nil =>
    intro w _ hw
    rcases hw with ⟨a, b, hab⟩
    rcases List.append_eq_nil.mp hab with ⟨hab', _⟩
    rcases List.append_eq_nil.mp hab' with ⟨_, rfl⟩
    exact ⟨[], by simp [splitNl], ⟨[], [], rfl⟩⟩
  | cons c cs ih =>
    intro w hnl hw
    rcases hw with ⟨a, b, hab⟩
    cases a with
    | cons x a' =>
      have hx : x = c := by
        have := congrArg (fun l => l.head?) hab
        simpa using this
      subst hx
      have htl : a' ++ w ++ b = cs := by
        have := congrArg List.tail hab
        simpa using this
      rcases ih hnl ⟨a', b, htl⟩ with ⟨u, hu, hwu⟩
      by_cases hc : x = '\n'
      · subst hc
        rw [splitNl_cons_nl]
        exact ⟨u, List.mem_cons_of_mem _ hu, hwu⟩
      · rcases h' : splitNl cs with _ | ⟨l0, ls0⟩
        · exact absurd h' splitNl_ne_nil
        · rw [splitNl_cons_other hc h']
          rw [h'] at hu
          rcases List.mem_cons.mp hu with rfl | hu'
          · rcases hwu with ⟨p, q, hpq⟩
            exact ⟨x :: u, by simp, ⟨x :: p, q, by rw [← hpq]; simp⟩⟩
          · exact ⟨u, List.mem_cons_of_mem _ hu', hwu⟩
    | nil =>
      simp only [List.nil_append] at hab
      rcases h' : splitNl (c :: cs) with _ | ⟨l0, ls0⟩
      · exact absurd h' splitNl_ne_nil
      · refine ⟨l0, by simp [h'], ?_⟩
        have hpw : w <+: c :: cs := ⟨b, hab⟩
        rcases nlfree_prefix_head hnl hpw h' with ⟨q, hq⟩
        exact ⟨[], q, by simp [hq]⟩

/-- One decimal digit character. -/
def digitChar (k : Nat) : Char := Char.ofNat (48 + k)

/-- Decimal digits of n, with explicit fuel so that the recursion is
structural and the kernel can evaluate it on concrete inputs. -/
def natToCharsGo : Nat → Nat → List Char
  | 0, _ => []
  | fuel + 1, n =>
    if n < 10 then [digitChar n]
    else natToCharsGo fuel (n / 10) ++ [digitChar (n % 10)]

/-- Decimal representation of a Nat, modelling the Python f-string rendering
of a page number. -/
def natToChars (n : Nat) : List Char := natToCharsGo (n + 1) n

theorem digitChar_props {k : Nat} (hk : k < 10) :
    (digitChar k).isDigit = true ∧ (digitChar k).toLower = digitChar k ∧
      digitChar k ≠ 'r' ∧ digitChar k ≠ '\n' := by
  interval_cases k <;> decide

theorem natToCharsGo_props : ∀ (fuel n : Nat), ∀ c ∈ natToCharsGo fuel n,
    c.isDigit = true ∧ c.toLower = c ∧ c ≠ 'r' ∧ c ≠ '\n' := by
  intro fuel
  induction fuel with
  | zero => intro n c hc; simp [natToCharsGo] at hc
  | succ f ih =>
    intro n c hc
    unfold natToCharsGo at hc
    by_cases h10 : n < 10
    · rw [if_pos h10] at hc
      rcases List.mem_singleton.mp hc with rfl
      rcases digitChar_props h10 with ⟨a, b, c', d⟩
      exact ⟨a, b, c', d⟩
    · rw [if_neg h10] at hc
      rcases List.mem_append.mp hc with hc' | hc'
      · exact ih _ c hc'
      · rcases List.mem_singleton.mp hc' with rfl
        rcases digitChar_props (Nat.mod_lt n (by omega)) with ⟨a, b, c', d⟩
        exact ⟨a, b, c', d⟩

theorem natToChars_props {n : Nat} : ∀ c ∈ natToChars n,
    c.isDigit = true ∧ c.toLower = c ∧ c ≠ 'r' ∧ c ≠ '\n' :=
  natToCharsGo_props (n + 1) n

theorem lc_append (a b : List Char) : lc (a ++ b) = lc a ++ lc b :=
  List.map_append Char.toLower a b

theorem lc_fixed {l : List Char} (h : ∀ c ∈ l, c.toLower = c) : lc l = l := by
  induction l with
  | nil => rfl
  | cons c cs ih =>
    simp only [lc, List.map_cons]
    rw [h c (by simp)]
    have := ih (fun x hx => h x (by simp [hx]))
    simp only [lc] at this
    rw [this]

/-- The page marker written before page n (extractor.py lines 275 and 309). -/
def markerOf (n : Nat) : List Char := chMarkPre ++ natToChars n ++ chMarkPost

/-- One page block of the transcript: the marker line, a newline, the text. -/
def pageBlock (n : Nat) (t : List Char) : List Char := markerOf n ++ '\n' :: t

/-- Join blocks with a blank line (Python join on a two-newline separator,
extractor.py line 367). -/
def joinBlanks : List (List Char) → List Char
  | [] => []
  | [b] => b
  | b :: b2 :: bs => b ++ '\n' :: '\n' :: joinBlanks (b2 :: bs)

/-- The page blocks of a sequence of page texts, numbering from n. -/
def blocksOfTexts : Nat → List (List Char) → List (List Char)
  | _, [] => []
  | n, t :: ts => pageBlock n t :: blocksOfTexts (n + 1) ts

theorem marker_line_safe {n : Nat} {c : Char} (hc : c ∈ lc (markerOf n)) :
    c ≠ 'r' ∧ c ≠ '\n' := by
  have hpre : ∀ x ∈ lc chMarkPre, x ≠ 'r' ∧ x ≠ '\n' := by decide
  have hpost : ∀ x ∈ lc chMarkPost, x ≠ 'r' ∧ x ≠ '\n' := by decide
  unfold markerOf at hc
  rw [lc_append, lc_append] at hc
  rcases List.mem_append.mp hc with hc' | hc'
  · rcases List.mem_append.mp hc' with hc'' | hc''
    · exact hpre c hc''
    · have hfix : lc (natToChars n) = natToChars n :=
        lc_fixed (fun x hx => (natToChars_props x hx).2.1)
      rw [hfix] at hc''
      rcases natToChars_props c hc'' with ⟨_, _, hr, hnl⟩
      exact ⟨hr, hnl⟩
  · exact hpost c hc'

theorem lc_joinBlanks : ∀ (bs : List (List Char)),
    lc (joinBlanks bs) = joinBlanks (bs.map lc) := by
  intro bs
  induction bs with
  | nil => rfl
  | cons b bs' ih =>
    cases bs' with
    | nil => rfl
    | cons b2 bs'' =>
      have h1 : joinBlanks (b :: b2 :: bs'') = b ++ '\n' :: '\n' :: joinBlanks (b2 :: bs'') := rfl
      have h2 : joinBlanks ((b :: b2 :: bs'').map lc)
          = lc b ++ '\n' :: '\n' :: joinBlanks ((b2 :: bs'').map lc) := rfl
      rw [h1, h2, lc_append, ← ih]
      have hnlfix : Char.toLower '\n' = '\n' := by decide
      simp [lc, hnlfix]

theorem mem_splitNl_joinBlanks : ∀ {blocks : List (List Char)} {u : List Char},
    u ∈ splitNl (joinBlanks blocks) → u = [] ∨ ∃ b ∈ blocks, u ∈ splitNl b := by
  intro blocks
  induction blocks with
  | nil =>
    intro u hu
    simp only [joinBlanks, splitNl, List.mem_singleton] at hu
    exact Or.inl hu
  | cons b bs ih =>
    cases bs with
    | nil =>
      intro u hu
      exact Or.inr ⟨b, by simp, by simpa [joinBlanks] using hu⟩
    | cons b2 bs' =>
      intro u hu
      have hj : joinBlanks (b :: b2 :: bs') = b ++ '\n' :: ('\n' :: joinBlanks (b2 :: bs')) := rfl
      rw [hj, splitNl_append_nl, splitNl_cons_nl] at hu
      rcases List.mem_append.mp hu with hu' | hu'
      · exact Or.inr ⟨b, by simp, hu'⟩
      · rcases List.mem_cons.mp hu' with rfl | hu''
        · exact Or.inl rfl
        · rcases ih hu'' with h | ⟨b', hb', hub⟩
          · exact Or.inl h
          · exact Or.inr ⟨b', by simp [hb'], hub⟩

theorem mem_blocksOfTexts : ∀ {n : Nat} {ts : List (List Char)} {b : List Char},
    b ∈ blocksOfTexts n ts → ∃ k t, t ∈ ts ∧ b = pageBlock k t := by
  intro n ts
  induction ts generalizing n with
  | nil => intro b hb; simp [blocksOfTexts] at hb
  | cons t ts' ih =>
    intro b hb
    rcases List.mem_cons.mp hb with rfl | hb'
    · exact ⟨n, t, by simp, rfl⟩
    · rcases ih hb' with ⟨k, t', ht', rfl⟩
      exact ⟨k, t', by simp [ht'], rfl⟩

/-- The central cross-page lemma: if no individual page text is classified as
an error, then the assembled transcript (marker blocks joined by blank lines)
is not classified as an error either.  Every classifier pattern instance is
newline-free, so a hit inside the transcript would lie inside a single line,
and every line of the transcript is a line of some page text, a marker line
(which contains no letter r, while every instance does), or empty. -/
theorem transcript_clean {ts : List (List Char)} {n : Nat}
    (hts : ∀ t ∈ ts, contains_api_error t = false) :
    contains_api_error (joinBlanks (blocksOfTexts n ts)) = false := by
  cases hb : contains_api_error (joinBlanks (blocksOfTexts n ts)) with
  | false => rfl
  | true =>
    exfalso
    rcases contains_api_error_iff.mp hb with ⟨w, hw, hinf⟩
    obtain ⟨hr, hnl⟩ := patInstance_props hw
    have hnl' : ∀ c ∈ w, c ≠ '\n' := fun c hc he => hnl (he ▸ hc)
    rw [lc_joinBlanks] at hinf
    rcases infix_splitNl hnl' hinf with ⟨u, hu, hwu⟩
    rcases mem_splitNl_joinBlanks hu with rfl | ⟨b, hb', hub⟩
    · rcases hwu with ⟨p, q, hpq⟩
      have hpq' : p ++ w ++ q = [] := hpq
      rcases List.append_eq_nil.mp hpq' with ⟨hpq'', _⟩
      rcases List.append_eq_nil.mp hpq'' with ⟨_, rfl⟩
      simp at hr
    · rcases List.mem_map.mp hb' with ⟨b0, hb0, rfl⟩
      rcases mem_blocksOfTexts hb0 with ⟨k, t, ht, rfl⟩
      have hpb : lc (pageBlock k t) = lc (markerOf k) ++ '\n' :: lc t := by
        have hnlfix : Char.toLower '\n' = '\n' := by decide
        simp [pageBlock, lc_append, lc, hnlfix]
      rw [hpb, splitNl_append_nl] at hub
      have hmk : splitNl (lc (markerOf k)) = [lc (markerOf k)] :=
        nlfree_splitNl (fun c hc => (marker_line_safe hc).2)
      rw [hmk] at hub
      rcases List.mem_cons.mp hub with rfl | hub'
      · rcases hwu with ⟨p, q, hpq⟩
        have hrm : 'r' ∈ lc (markerOf k) := by
          rw [← hpq]
          exact List.mem_append_left _ (List.mem_append_right _ hr)
        exact (marker_line_safe hrm).1 rfl
      · have h1 : w <:+: lc t := infx_trans hwu (splitNl_mem_sub hub')
        have h2 := contains_api_error_iff.mpr ⟨w, hw, h1⟩
        rw [hts t ht] at h2
        cases h2

deriving instance DecidableEq for Except

/-- Python str.strip: drop whitespace from both ends. -/
def pyStrip (l : List Char) : List Char :=
  ((l.dropWhile Char.isWhitespace).reverse.dropWhile Char.isWhitespace).reverse

/-- Mode / provider strings of the extractor, already lowercased (the Python
code lowercases them on entry); `other` stands for any string besides the
four recognized ones. -/
inductive PStr
  | claude
  | gemini
  | spacy
  | local
  | other
deriving DecidableEq

/-- Output format strings; plain stands for every non-markdown value. -/
inductive Fmt
  | markdown
  | plain
deriving DecidableEq

/-- Outcome of the local (spacy) branch, extractor.py 323-361, as determined
by the environment: the imports fail (ImportError is re-raised); some other
exception is raised before total_pages is assigned on line 337 (for example
by spacy.load or by the layout call on line 333); an exception is raised
after that assignment (for example by reading doc.text); or the whole branch
succeeds with the page count and the extracted document text. -/
inductive SpacyOutcome
  | importMissing
  | failBeforePages (msg : List Char)
  | failAfterPages (total : Nat) (msg : List Char)
  | ok (total : Nat) (fullText : List Char)

/-- The exceptions extract_pdf_text_with_mode can raise: the two ValueErrors
(no api key / unknown mode), the re-raised ImportError of local mode, the
RuntimeError raised when a page is classified as an API error, and the
UnboundLocalError at the final return when total_pages was never assigned. -/
inductive PyError
  | valueErrorApiKey
  | valueErrorUnknownMode
  | importError
  | runtimeError (msg : List Char)
  | unboundLocalTotalPages
deriving DecidableEq

/-- Result of one call to extract_pdf_text_with_mode: the content written to
output_path (none when nothing was written), the content written to
plain_output_path, and either the raised exception or the returned
total_pages (the page_timings and total_time components of the returned
triple are wall-clock values and are not modelled). -/
structure ExtractOutcome where
  written : Option (List Char)
  plainWritten : Option (List Char)
  result : Except PyError Nat
deriving DecidableEq

/-- The message of the RuntimeError raised on a classified page (extractor.py
287 and 321). -/
def runtimeMsg (k : Nat) (t : List Char) : List Char :=
  chRunPre ++ natToChars k ++ chRunMid ++ t

/-- The per-page exception marker returned instead of raising (extractor.py
130 and 212): bracket, Error extracting page, 1-based number, colon, the
exception message, bracket. -/
def excMarker (page_num : Nat) (e : List Char) : List Char :=
  chExcPre ++ natToChars (page_num + 1) ++ chColSp ++ e ++ [']']

/-- Model of extract_text_from_page (extractor.py 133-212) and its identical
gemini counterpart (64-130): the remote call either returns text (then a
leading Text-colon tag is stripped together with surrounding whitespace) or
raises, in which case the page-numbered error marker is returned instead.
The argument r is the outcome of the remote call, supplied by the
environment; page_num is 0-based as in the source. -/
def extract_text_from_page (r : Except (List Char) (List Char)) (page_num : Nat) : List Char :=
  match r with
  | Except.ok t => if prefB chTextColon t then pyStrip (t.drop 5) else t
  | Except.error e => excMarker page_num e

/-- Environment for one page of a remote-mode run: the outcome of the
markdown-format call and (when dual output is requested) of the plain-format
call. -/
abbrev PageCall : Type := Except (List Char) (List Char) × Except (List Char) (List Char)

/-- The per-page texts produced by the remote loop, starting at 0-based
index i. -/
def textsFrom : Nat → List PageCall → List (List Char)
  | _, [] => []
  | i, pc :: rest => extract_text_from_page pc.1 i :: textsFrom (i + 1) rest

/-- The remote per-page loop (extractor.py 268-287 for claude, 302-321 for
gemini): in page order, obtain the page text, append its marker block, and
stop with the 1-based page number and offending text as soon as a page is
classified as an API error.  (In the source the block is appended before the
check and the file is only written after the loop, so an aborted run writes
nothing; the model returns the error without the blocks.) -/
def processPagesFrom : Nat → List PageCall → Except (Nat × List Char) (List (List Char))
  | _, [] => Except.ok []
  | i, pc :: rest =>
    if contains_api_error (extract_text_from_page pc.1 i) then
      Except.error (i + 1, extract_text_from_page pc.1 i)
    else
      match processPagesFrom (i + 1) rest with
      | Except.error e => Except.error e
      | Except.ok bs => Except.ok (pageBlock (i + 1) (extract_text_from_page pc.1 i) :: bs)

/-- The plain-format blocks of the dual-output path (extractor.py 278-280,
312-314); these are never checked by the classifier. -/
def plainBlocksFrom : Nat → List PageCall → List (List Char)
  | _, [] => []
  | i, pc :: rest => pageBlock (i + 1) (extract_text_from_page pc.2 i) :: plainBlocksFrom (i + 1) rest

/-- The shared body of the claude and gemini branches of
extract_pdf_text_with_mode (extractor.py 257-287 and 289-321; the two loops
are identical except for which remote client is invoked, which is abstracted
into the PageCall environment): require an api key, run the per-page loop,
and on success write the joined transcript (line 367-370) and, when
requested and nonempty, the joined plain transcript (373-376), returning the
page count. -/
def remoteRun (apiKey : Bool) (fmt : Fmt) (plainRequested : Bool)
    (pages : List PageCall) : ExtractOutcome :=
  if apiKey = false then ⟨none, none, Except.error PyError.valueErrorApiKey⟩
  else
    match processPagesFrom 0 pages with
    | Except.error e => ⟨none, none, Except.error (PyError.runtimeError (runtimeMsg e.1 e.2))⟩
    | Except.ok blocks =>
      ⟨some (joinBlanks blocks),
       if plainRequested ∧ fmt = Fmt.markdown ∧ pages ≠ [] then
         some (joinBlanks (plainBlocksFrom 0 pages))
       else none,
       Except.ok pages.length⟩

/-- The local-mode exception marker (extractor.py 361). -/
def spacyErrMarker (e : List Char) : List Char := chSpacyExcPre ++ e ++ [']']

/-- The local (spacy) branch, extractor.py 323-361 plus the shared epilogue
366-379.  On importMissing the ImportError is re-raised before anything is
written.  On any other exception the error marker is appended and the file
write at 369 still happens; the return at 379 then raises UnboundLocalError
when the exception occurred before total_pages was assigned at 337, and
returns normally otherwise.  On success the single whole-document block is
written. -/
def spacyRun : SpacyOutcome → ExtractOutcome
  | SpacyOutcome.importMissing => ⟨none, none, Except.error PyError.importError⟩
  | SpacyOutcome.failBeforePages msg =>
    ⟨some (spacyErrMarker msg), none, Except.error PyError.unboundLocalTotalPages⟩
  | SpacyOutcome.failAfterPages n msg =>
    ⟨some (spacyErrMarker msg), none, Except.ok n⟩
  | SpacyOutcome.ok n fullText =>
    ⟨some (chDocMark ++ '\n' :: fullText), none, Except.ok n⟩

/-- The mode/provider normalization of extractor.py 243-250: both strings are
lowercased (already reflected in PStr) and, when the mode itself names a
provider, the provider is overridden by it. -/
def normalizeModes (mode provider : PStr) : PStr × PStr :=
  if mode = PStr.claude ∨ mode = PStr.gemini then (mode, mode) else (mode, provider)

/-- Model of extract_pdf_text_with_mode (extractor.py 219-379).  The branch
conditions follow lines 257, 289 and 323 exactly: the claude branch runs
when the normalized mode or provider is claude, else the gemini branch when
either is gemini, else the spacy branch when the mode is spacy or local,
else a ValueError.  Note that because the provider argument defaults to
claude in the source, the claude branch also captures mode=spacy calls that
leave provider at its default. -/
def extract_pdf_text_with_mode (mode provider : PStr) (apiKey : Bool) (fmt : Fmt)
    (plainRequested : Bool) (pages : List PageCall) (sp : SpacyOutcome) : ExtractOutcome :=
  let mp := normalizeModes mode provider
  if mp.1 = PStr.claude ∨ mp.2 = PStr.claude then
    remoteRun apiKey fmt plainRequested pages
  else if mp.1 = PStr.gemini ∨ mp.2 = PStr.gemini then
    remoteRun apiKey fmt plainRequested pages
  else if mp.1 = PStr.spacy ∨ mp.1 = PStr.local then
    spacyRun sp
  else ⟨none, none, Except.error PyError.valueErrorUnknownMode⟩

/-- The remote (per-page) branches are the first two: this predicate says the
call is dispatched to the per-page loop. -/
def isRemoteBranch (mode provider : PStr) : Prop :=
  ((normalizeModes mode provider).1 = PStr.claude ∨ (normalizeModes mode provider).2 = PStr.claude)
    ∨ ((normalizeModes mode provider).1 = PStr.gemini ∨ (normalizeModes mode provider).2 = PStr.gemini)

instance (mode provider : PStr) : Decidable (isRemoteBranch mode provider) := by
  unfold isRemoteBranch
  infer_instance

theorem extract_remote_eq {mode provider : PStr} (h : isRemoteBranch mode provider)
    (apiKey : Bool) (fmt : Fmt) (plainRequested : Bool) (pages : List PageCall)
    (sp : SpacyOutcome) :
    extract_pdf_text_with_mode mode provider apiKey fmt plainRequested pages sp
      = remoteRun apiKey fmt plainRequested pages := by
  unfold extract_pdf_text_with_mode
  rcases h with h1 | h2
  · rw [if_pos h1]
  · by_cases h1 : (normalizeModes mode provider).1 = PStr.claude
        ∨ (normalizeModes mode provider).2 = PStr.claude
    · rw [if_pos h1]
    · rw [if_neg h1, if_pos h2]

theorem textsFrom_length : ∀ (i : Nat) (pcs : List PageCall),
    (textsFrom i pcs).length = pcs.length := by
  intro i pcs
  induction pcs generalizing i with
  | nil => rfl
  | cons pc rest ih => simp [textsFrom, ih]

theorem blocksOfTexts_get : ∀ (n : Nat) (ts : List (List Char)) (i : Nat),
    (blocksOfTexts n ts)[i]? = Option.map (pageBlock (n + i)) ts[i]? := by
  intro n ts
  induction ts generalizing n with
  | nil => intro i; simp [blocksOfTexts]
  | cons t ts' ih =>
    intro i
    cases i with
    | zero => simp [blocksOfTexts]
    | succ j =>
      simp only [blocksOfTexts, List.getElem?_cons_succ]
      rw [ih (n + 1) j]
      rw [show n + (j + 1) = n + 1 + j by omega]

theorem processPagesFrom_ok : ∀ {i : Nat} {pcs : List PageCall} {bs : List (List Char)},
    processPagesFrom i pcs = Except.ok bs →
    bs = blocksOfTexts (i + 1) (textsFrom i pcs) ∧
      ∀ t ∈ textsFrom i pcs, contains_api_error t = false := by
  intro i pcs
  induction pcs generalizing i with
  | nil =>
    intro bs h
    unfold processPagesFrom at h
    injection h with h
    subst h
    exact ⟨rfl, by intro t ht; simp [textsFrom] at ht⟩
  | cons pc rest ih =>
    intro bs h
    unfold processPagesFrom at h
    by_cases hc : contains_api_error (extract_text_from_page pc.1 i) = true
    · rw [if_pos hc] at h
      cases h
    · rw [if_neg hc] at h
      rcases hrec : processPagesFrom (i + 1) rest with e | bs'
      · rw [hrec] at h; cases h
      · rw [hrec] at h
        injection h with h
        subst h
        rcases ih hrec with ⟨hbs, hclean⟩
        refine ⟨by simp [textsFrom, blocksOfTexts, hbs], ?_⟩
        intro t ht
        rcases List.mem_cons.mp ht with rfl | ht'
        · exact Bool.eq_false_iff.mpr (fun he => hc he)
        · exact hclean t ht'

theorem processPagesFrom_err : ∀ {i k : Nat} {pcs : List PageCall} {t : List Char},
    processPagesFrom i pcs = Except.error (k, t) →
    contains_api_error t = true ∧ i + 1 ≤ k ∧
      (textsFrom i pcs)[k - (i + 1)]? = some t ∧
      ∀ j < k - (i + 1), ∃ u, (textsFrom i pcs)[j]? = some u ∧ contains_api_error u = false := by
  intro i k pcs
  induction pcs generalizing i with
  | nil =>
    intro t h
    unfold processPagesFrom at h
    cases h
  | cons pc rest ih =>
    intro t h
    unfold processPagesFrom at h
    by_cases hc : contains_api_error (extract_text_from_page pc.1 i) = true
    · rw [if_pos hc] at h
      injection h with h
      injection h with h1 h2
      subst h1
      subst h2
      refine ⟨hc, Nat.le_refl _, ?_, ?_⟩
      · simp [textsFrom]
      · intro j hj
        omega
    · rw [if_neg hc] at h
      rcases hrec : processPagesFrom (i + 1) rest with e | bs'
      · rw [hrec] at h
        rcases e with ⟨k', t'⟩
        injection h with h
        injection h with h1 h2
        rw [h1, h2] at hrec
        rcases ih hrec with ⟨hct, hk, hidx, hbefore⟩
        refine ⟨hct, by omega, ?_, ?_⟩
        · have harith : k - (i + 1) = (k - (i + 2)) + 1 := by omega
          rw [harith]
          simpa [textsFrom] using hidx
        · intro j hj
          cases j with
          | zero =>
            exact ⟨extract_text_from_page pc.1 i, by simp [textsFrom],
              Bool.eq_false_iff.mpr (fun he => hc he)⟩
          | succ j' =>
            have hj' : j' < k - (i + 2) := by omega
            rcases hbefore j' hj' with ⟨u, hu, hcu⟩
            exact ⟨u, by simpa [textsFrom] using hu, hcu⟩
      · rw [hrec] at h
        cases h

theorem processPagesFrom_error_of_exists {i : Nat} {pcs : List PageCall}
    (h : ∃ t ∈ textsFrom i pcs, contains_api_error t = true) :
    ∃ k t, processPagesFrom i pcs = Except.error (k, t) := by
  rcases hres : processPagesFrom i pcs with e | bs
  · exact ⟨e.1, e.2, by rcases e with ⟨k, t⟩; rfl⟩
  · rcases h with ⟨t, ht, hc⟩
    rw [(processPagesFrom_ok hres).2 t ht] at hc
    cases hc

/-- An OCR token as exposed by the spaCy Layout document (injector.py 61-66):
the hasattr checks of the source are modelled by the two Bool fields, the
box coordinates are rationals (floats in the source), the page index is
1-based.  Tokens lacking the page attribute never compare equal to i+1 in
the source; the hasPage flag models that. -/
structure Token where
  hasPage : Bool
  page : Nat
  hasCoords : Bool
  x0 : ℚ
  y0 : ℚ
  x1 : ℚ
  y1 : ℚ
  text : List Char
deriving DecidableEq

/-- One page.insert_text call issued by the injector (injector.py 74-80):
the insertion point, the inserted text, the font size and the PyMuPDF render
mode (3 = invisible). -/
structure InsertOp where
  pos : ℚ × ℚ
  text : List Char
  fontsize : ℚ
  render_mode : Nat
deriving DecidableEq

/-- The eligibility test of injector.py 63-64 for the 0-based page index i:
the token carries a page attribute equal to i+1, carries coordinates, and
its text is nonempty after stripping.  (No condition on the box extents is
tested by the source.) -/
def tokenEligible (i : Nat) (tok : Token) : Bool :=
  tok.hasPage && (tok.page == i + 1) && tok.hasCoords && !(pyStrip tok.text).isEmpty

/-- The insertion operation built for a token (injector.py 66-80): anchor at
the box's (x0, y1) (its bottom-left corner), font size max(6, height*0.75),
invisible render mode. -/
def opOf (tok : Token) : InsertOp :=
  ⟨(tok.x0, tok.y1), tok.text, max 6 ((tok.y1 - tok.y0) * (3 / 4)), 3⟩

/-- The sequence of insert_text operations the injector issues on (0-based)
page i of the output PDF, given the OCR tokens of the document
(injector.py 61-83).  The per-word try/except around insert_text swallows
PyMuPDF-level failures; the operations listed here are the calls issued.
The page flattening (steps 42-57) is raster graphics and is not modelled. -/
def inject_ops (tokens : List Token) (i : Nat) : List InsertOp :=
  (tokens.filter (tokenEligible i)).map opOf

theorem inject_ops_mem {tokens : List Token} {i : Nat} {op : InsertOp} :
    op ∈ inject_ops tokens i
      ↔ ∃ tok ∈ tokens, tokenEligible i tok = true ∧ op = opOf tok := by
  unfold inject_ops
  constructor
  · intro h
    rcases List.mem_map.mp h with ⟨tok, htok, rfl⟩
    rcases List.mem_filter.mp htok with ⟨hmem, hel⟩
    exact ⟨tok, hmem, hel, rfl⟩
  · rintro ⟨tok, hmem, hel, rfl⟩
    exact List.mem_map.mpr ⟨tok, List.mem_filter.mpr ⟨hmem, hel⟩, rfl⟩

/-- Abstract PDF byte strings. -/
abbrev PdfBytes : Type := Nat

/-- The on-disk state of one document: the bytes of the original PDF, the
transcript output file (absent / present-but-unreadable / present with
content), the *_searchable.pdf file and the *.pdf.tmp file. -/
structure DocFS where
  orig : PdfBytes
  mainOut : Option (Option (List Char))
  searchable : Option PdfBytes
  tmp : Option PdfBytes
deriving DecidableEq

/-- Outcome of one inject_text_to_pdf call, supplied by the environment:
success with the produced bytes; an exception, with the bytes left at the
target path when the save partially happened (none when the target file was
never created); or a KeyboardInterrupt arriving during the call, with the
same partial-file information. -/
inductive InjectOutcome
  | ok (out : PdfBytes)
  | fail (partialBytes : Option PdfBytes)
  | interrupt (partialBytes : Option PdfBytes)

/-- Per-document environment: the remote per-page call outcomes, the local
branch outcome (part of the extractor signature; unreachable from
batch_process, which leaves provider at its claude default), and the
injector outcome. -/
structure DocEnv where
  pages : List PageCall
  sp : SpacyOutcome
  injectOut : InjectOutcome

/-- The batch_process flags (batch.py 110). -/
structure Flags where
  overwrite : Bool
  skip_existing : Bool
  mode : PStr
  fmt : Fmt
  ocr_only : Bool
  skip_ocr : Bool
  apiKey : Bool
deriving DecidableEq

/-- How one document fared in the loop (batch.py 221-321). -/
inductive DocResult
  | skipped
  | processed
  | errored
  | interrupted
deriving DecidableEq

/-- The transcript-based skip check of batch.py 247-264: only outside
OCR-only mode, only with skip_existing, and only when the transcript file
exists, is readable and is classified error-free; an unreadable or
error-tainted transcript falls through to reprocessing. -/
def skipByMain (fl : Flags) (fs : DocFS) : Bool :=
  !fl.ocr_only && fl.skip_existing &&
    (match fs.mainOut with
     | some (some c) => !(contains_api_error c)
     | some none => false
     | none => false)

/-- The searchable-PDF skip check of batch.py 267-270: final_pdf exists and
differs from pdf_file, which holds exactly when overwrite is off and the
*_searchable.pdf exists. -/
def skipBySearchable (fl : Flags) (fs : DocFS) : Bool :=
  fl.skip_existing && !fl.overwrite && fs.searchable.isSome

/-- The cleanup of both exception handlers (batch.py 311-312 and 319-320):
unlink output_pdf when it exists and differs from final_pdf — which is the
case only in overwrite mode, where output_pdf is the .pdf.tmp path. -/
def handlerCleanup (fl : Flags) (fs : DocFS) : DocFS :=
  if fl.overwrite then { fs with tmp := none } else fs

/-- The searchable-PDF stage of the loop body (batch.py 295-304): skipped
entirely under skip_ocr; otherwise inject_text_to_pdf writes to output_pdf
(the tmp path in overwrite mode, the *_searchable.pdf otherwise), and in
overwrite mode os.replace then atomically moves the tmp file onto the
original.  On an exception or interrupt the handlers of 308-321 run. -/
def injectStage (fl : Flags) (env : DocEnv) (fs : DocFS) : DocFS × DocResult :=
  if fl.skip_ocr then (fs, DocResult.processed)
  else
    match env.injectOut with
    | InjectOutcome.ok b =>
      if fl.overwrite then ({ fs with orig := b, tmp := none }, DocResult.processed)
      else ({ fs with searchable := some b }, DocResult.processed)
    | InjectOutcome.fail p =>
      if fl.overwrite then ({ fs with tmp := none }, DocResult.errored)
      else
        ({ fs with searchable := match p with | some b => some b | none => fs.searchable },
          DocResult.errored)
    | InjectOutcome.interrupt p =>
      if fl.overwrite then ({ fs with tmp := none }, DocResult.interrupted)
      else
        ({ fs with searchable := match p with | some b => some b | none => fs.searchable },
          DocResult.interrupted)

/-- The loop body of batch_process for one document (batch.py 228-321): the
two skip checks, then (outside OCR-only mode) the extraction call — whose
transcript write updates the filesystem and whose exception is caught by
the handler at 315, counting an error and cleaning up the tmp file — then
the searchable-PDF stage.  batch_process always calls the extractor with
its provider argument at the claude default.  The console output and the
confirmation prompt are not modelled; a KeyboardInterrupt is modelled as
arriving during the injector call (the long-running synthesis step). -/
def extractStage (fl : Flags) (env : DocEnv) (fs : DocFS) : DocFS × DocResult :=
  let eo := extract_pdf_text_with_mode fl.mode PStr.claude fl.apiKey fl.fmt false
    env.pages env.sp
  let fs1 := match eo.written with
    | some c => { fs with mainOut := some (some c) }
    | none => fs
  match eo.result with
  | Except.error _ => (handlerCleanup fl fs1, DocResult.errored)
  | Except.ok _ => injectStage fl env fs1

def processDoc (fl : Flags) (env : DocEnv) (fs : DocFS) : DocFS × DocResult :=
  if skipByMain fl fs then (fs, DocResult.skipped)
  else if skipBySearchable fl fs then (fs, DocResult.skipped)
  else if fl.ocr_only then injectStage fl env fs
  else extractStage fl env fs

/-- Aggregate outcome of a batch run: the final per-document states (in
order) and the processed/skipped/errors counters of the summary, plus
whether the loop was broken by an interrupt. -/
structure BatchOut where
  states : List DocFS
  processed : Nat
  skipped : Nat
  errors : Nat
  interrupted : Bool
deriving DecidableEq

/-- The document loop of batch_process (batch.py 228-321): documents in
order, each processed by processDoc; an interrupt breaks the loop, leaving
the remaining documents untouched; an error continues with the next
document. -/
def batchRun (fl : Flags) : List (DocEnv × DocFS) → BatchOut
  | [] => ⟨[], 0, 0, 0, false⟩
  | d :: rest =>
    match processDoc fl d.1 d.2 with
    | (fs', DocResult.interrupted) =>
      ⟨fs' :: rest.map Prod.snd, 0, 0, 0, true⟩
    | (fs', DocResult.skipped) =>
      let o := batchRun fl rest
      ⟨fs' :: o.states, o.processed, o.skipped + 1, o.errors, o.interrupted⟩
    | (fs', DocResult.processed) =>
      let o := batchRun fl rest
      ⟨fs' :: o.states, o.processed + 1, o.skipped, o.errors, o.interrupted⟩
    | (fs', DocResult.errored) =>
      let o := batchRun fl rest
      ⟨fs' :: o.states, o.processed, o.skipped, o.errors + 1, o.interrupted⟩

/-- The per-file decision of the estimation pass estimate_cost
(batch.py 42-68): returns (should_process, counted-as-error-recovery).  With
skip_existing and an existing transcript, the file content decides: an
error-free readable file is skipped, an error-tainted or unreadable one is
re-queued and flagged; otherwise the file is queued without a flag. -/
def estimateShouldProcess (skip_existing : Bool)
    (mainOut : Option (Option (List Char))) : Bool × Bool :=
  match skip_existing, mainOut with
  | true, some (some c) => if contains_api_error c then (true, true) else (false, false)
  | true, some none => (true, true)
  | true, none => (true, false)
  | false, _ => (true, false)

theorem blocksOfTexts_length : ∀ (n : Nat) (ts : List (List Char)),
    (blocksOfTexts n ts).length = ts.length := by
  intro n ts
  induction ts generalizing n with
  | nil => rfl
  | cons t ts' ih => simp [blocksOfTexts, ih]

theorem tokenEligible_iff {i : Nat} {tok : Token} :
    tokenEligible i tok = true ↔
      tok.hasPage = true ∧ tok.page = i + 1 ∧ tok.hasCoords = true ∧
        pyStrip tok.text ≠ [] := by
  unfold tokenEligible
  simp only [Bool.and_eq_true, Bool.not_eq_true', beq_iff_eq, and_assoc]
  constructor
  · rintro ⟨h1, h2, h3, h4⟩
    refine ⟨h1, h2, h3, ?_⟩
    intro he
    rw [he] at h4
    simp at h4
  · rintro ⟨h1, h2, h3, h4⟩
    refine ⟨h1, h2, h3, ?_⟩
    rcases hpe : pyStrip tok.text with _ | ⟨a, l⟩
    · exact absurd hpe h4
    · rfl

/-- C3: the error classifier is monotonic under superstrings: a string that
contains a classified substring is itself classified. -/
theorem claim_C3 (t s : List Char) (h : contains_api_error t = true)
    (hsub : t <:+: s) : contains_api_error s = true :=
  contains_api_error_mono h hsub

theorem claim_C3_witness :
    contains_api_error chRateLimit = true
      ∧ chRateLimit <:+: ('x' :: ' ' :: chRateLimit ++ [' ', 'y'])
      ∧ contains_api_error ('x' :: ' ' :: chRateLimit ++ [' ', 'y']) = true :=
  ⟨by decide, by decide, claim_C3 chRateLimit _ (by decide) (by decide)⟩

/-- C4: every text run the synthesizer injects into (0-based) page i comes
from an OCR token of that page, is anchored exactly at the token box's
(x0, y1), uses exactly font size max(6, (y1-y0)*0.75), and uses the
invisible render mode 3. -/
theorem claim_C4 (tokens : List Token) (i : Nat) (op : InsertOp)
    (hop : op ∈ inject_ops tokens i) :
    ∃ tok ∈ tokens, tok.hasPage = true ∧ tok.page = i + 1 ∧ tok.hasCoords = true ∧
      op.render_mode = 3 ∧ op.pos = (tok.x0, tok.y1) ∧
      op.fontsize = max 6 ((tok.y1 - tok.y0) * (3 / 4)) ∧ op.text = tok.text := by
  rcases inject_ops_mem.mp hop with ⟨tok, hmem, hel, rfl⟩
  rcases tokenEligible_iff.mp hel with ⟨h1, h2, h3, _⟩
  exact ⟨tok, hmem, h1, h2, h3, rfl, rfl, rfl, rfl⟩

/-- Concrete token for the C4 witness. -/
def c4tok : Token := ⟨true, 1, true, 2, 3, 10, 7, ['w', 'd']⟩

theorem claim_C4_witness :
    ∃ tok ∈ [c4tok], tok.hasPage = true ∧ tok.page = 0 + 1 ∧ tok.hasCoords = true ∧
      (opOf c4tok).render_mode = 3 ∧ (opOf c4tok).pos = (tok.x0, tok.y1) ∧
      (opOf c4tok).fontsize = max 6 ((tok.y1 - tok.y0) * (3 / 4)) ∧
      (opOf c4tok).text = tok.text :=
  claim_C4 [c4tok] 0 (opOf c4tok) (by
    have h : inject_ops [c4tok] 0 = [opOf c4tok] := rfl
    rw [h]
    exact List.mem_singleton.mpr rfl)

/-- Degenerate token: non-empty text but a zero-extent box (x1 = x0 and
y1 = y0). -/
def degenTok : Token := ⟨true, 1, true, 5, 5, 5, 5, ['h', 'i']⟩

/-- C5, counterexample: the claim says a word box is injected only if
x1 > x0 and y1 > y0; in the code (injector.py 63-64) no box-extent check is
made, so this degenerate box with nonempty text is injected. -/
theorem claim_C5_counterexample :
    opOf degenTok ∈ inject_ops [degenTok] 0
      ∧ ¬ degenTok.x1 > degenTok.x0 ∧ ¬ degenTok.y1 > degenTok.y0 := by
  refine ⟨?_, by decide, by decide⟩
  have h : inject_ops [degenTok] 0 = [opOf degenTok] := rfl
  rw [h]
  exact List.mem_singleton.mpr rfl

/-- C5, amended: a word box is injected into page i exactly under the
conditions the code tests — a page attribute equal to i+1, coordinate
attributes, and text that is nonempty after stripping; the box extents are
not examined, so degenerate boxes meeting these conditions are injected
rather than dropped. -/
theorem claim_C5_amended (tokens : List Token) (i : Nat) :
    (∀ tok ∈ tokens, tok.hasPage = true → tok.page = i + 1 → tok.hasCoords = true →
        pyStrip tok.text ≠ [] → opOf tok ∈ inject_ops tokens i)
      ∧ (∀ op ∈ inject_ops tokens i, ∃ tok ∈ tokens,
          tok.hasPage = true ∧ tok.page = i + 1 ∧ tok.hasCoords = true ∧
            pyStrip tok.text ≠ [] ∧ op = opOf tok) := by
  constructor
  · intro tok hmem h1 h2 h3 h4
    exact inject_ops_mem.mpr ⟨tok, hmem, tokenEligible_iff.mpr ⟨h1, h2, h3, h4⟩, rfl⟩
  · intro op hop
    rcases inject_ops_mem.mp hop with ⟨tok, hmem, hel, rfl⟩
    rcases tokenEligible_iff.mp hel with ⟨h1, h2, h3, h4⟩
    exact ⟨tok, hmem, h1, h2, h3, h4, rfl⟩

theorem claim_C5_amended_witness :
    opOf degenTok ∈ inject_ops [degenTok] 0 :=
  (claim_C5_amended [degenTok] 0).1 degenTok (List.mem_singleton.mpr rfl)
    (by decide) (by decide) (by decide) (by decide)

/-- C6, counterexample: the per-page exception marker built from an
arbitrary exception message is not, in general, classified as an error by
contains_api_error (the bracketed pattern requires an inner error-code
literal): for the message "timeout" the returned marker is not classified. -/
theorem claim_C6_counterexample :
    extract_text_from_page (Except.error ['t', 'i', 'm', 'e', 'o', 'u', 't']) 0
        = excMarker 0 ['t', 'i', 'm', 'e', 'o', 'u', 't']
      ∧ contains_api_error
          (extract_text_from_page (Except.error ['t', 'i', 'm', 'e', 'o', 'u', 't']) 0)
        = false :=
  ⟨rfl, by decide⟩

/-- C6, amended: on any exception, extract_text_from_page returns the marker
string naming page N (never raising), and that marker is classified as an
error by contains_api_error whenever the exception's message is itself
classified — but not for arbitrary messages. -/
theorem claim_C6_amended (e : List Char) (page_num : Nat) :
    extract_text_from_page (Except.error e) page_num = excMarker page_num e
      ∧ (contains_api_error e = true →
          contains_api_error (extract_text_from_page (Except.error e) page_num) = true) := by
  refine ⟨rfl, ?_⟩
  intro he
  have hsub : e <:+: excMarker page_num e :=
    ⟨chExcPre ++ natToChars (page_num + 1) ++ chColSp, [']'], by simp [excMarker]⟩
  exact contains_api_error_mono he hsub

theorem claim_C6_amended_witness :
    contains_api_error (extract_text_from_page (Except.error chRateLimit) 0) = true :=
  (claim_C6_amended chRateLimit 0).2 (by decide)

/-- C10: in local mode (reached with mode spacy/local and a provider that is
neither claude nor gemini), an exception during layout extraction — raised
before total_pages is assigned on extractor.py line 337 and other than an
ImportError — leads to the error-marker transcript being written to the
output path (lines 360-361 then 366-370) and then to an UnboundLocalError
at the return on line 379, so the documented triple is never returned. -/
theorem claim_C10 (mode provider : PStr) (apiKey : Bool) (fmt : Fmt)
    (plainRequested : Bool) (pages : List PageCall) (msg : List Char)
    (hmode : mode = PStr.spacy ∨ mode = PStr.local)
    (hprov : provider ≠ PStr.claude ∧ provider ≠ PStr.gemini) :
    extract_pdf_text_with_mode mode provider apiKey fmt plainRequested pages
        (SpacyOutcome.failBeforePages msg)
      = ⟨some (spacyErrMarker msg), none, Except.error PyError.unboundLocalTotalPages⟩ := by
  have hm1 : mode ≠ PStr.claude := by rcases hmode with rfl | rfl <;> decide
  have hm2 : mode ≠ PStr.gemini := by rcases hmode with rfl | rfl <;> decide
  have hnorm : normalizeModes mode provider = (mode, provider) := by
    unfold normalizeModes
    rw [if_neg]
    rintro (h | h)
    · exact hm1 h
    · exact hm2 h
  have hc1 : ¬(mode = PStr.claude ∨ provider = PStr.claude) := by
    rintro (h | h)
    · exact hm1 h
    · exact hprov.1 h
  have hc2 : ¬(mode = PStr.gemini ∨ provider = PStr.gemini) := by
    rintro (h | h)
    · exact hm2 h
    · exact hprov.2 h
  simp only [extract_pdf_text_with_mode, hnorm]
  rw [if_neg hc1, if_neg hc2, if_pos hmode]
  rfl

theorem claim_C10_witness :
    extract_pdf_text_with_mode PStr.spacy PStr.spacy true Fmt.markdown false []
        (SpacyOutcome.failBeforePages ['b', 'o', 'o', 'm'])
      = ⟨some (spacyErrMarker ['b', 'o', 'o', 'm']), none,
          Except.error PyError.unboundLocalTotalPages⟩ :=
  claim_C10 PStr.spacy PStr.spacy true Fmt.markdown false [] ['b', 'o', 'o', 'm']
    (by decide) (by decide)

theorem remoteRun_ok {apiKey : Bool} {fmt : Fmt} {plainRequested : Bool}
    {pages : List PageCall} {n : Nat}
    (hok : (remoteRun apiKey fmt plainRequested pages).result = Except.ok n) :
    n = pages.length ∧ ∃ blocks, processPagesFrom 0 pages = Except.ok blocks ∧
      (remoteRun apiKey fmt plainRequested pages).written = some (joinBlanks blocks) := by
  unfold remoteRun at hok ⊢
  by_cases hk : apiKey = false
  · rw [if_pos hk] at hok
    cases hok
  · rw [if_neg hk] at hok ⊢
    rcases hp : processPagesFrom 0 pages with e | blocks
    · rw [hp] at hok
      exact absurd hok (by simp)
    · rw [hp] at hok
      injection hok with h
      exact ⟨h.symm, blocks, rfl, rfl⟩

theorem remoteRun_err (fmt : Fmt) (plainRequested : Bool) {apiKey : Bool}
    {pages : List PageCall} {k : Nat} {t : List Char}
    (hp : processPagesFrom 0 pages = Except.error (k, t)) (hk : apiKey = true) :
    remoteRun apiKey fmt plainRequested pages
      = ⟨none, none, Except.error (PyError.runtimeError (runtimeMsg k t))⟩ := by
  subst hk
  unfold remoteRun
  rw [if_neg (by decide : ¬(true = false)), hp]

/-- C1: whenever a remote (per-page) call of extract_pdf_text_with_mode
returns normally, the returned page count is the number of pages and the
transcript written to the output path is exactly the page blocks joined by a
blank line — block i being the marker line for page i+1 followed by that
page's text — one block per page in order, none omitted (a page whose text
is an error-marker string still occupies its slot, since an unclassified
error string does not abort the run). -/
theorem claim_C1 (mode provider : PStr) (apiKey : Bool) (fmt : Fmt)
    (plainRequested : Bool) (pages : List PageCall) (sp : SpacyOutcome) (n : Nat)
    (hrem : isRemoteBranch mode provider)
    (hok : (extract_pdf_text_with_mode mode provider apiKey fmt plainRequested pages sp).result
      = Except.ok n) :
    n = pages.length
      ∧ (extract_pdf_text_with_mode mode provider apiKey fmt plainRequested pages sp).written
          = some (joinBlanks (blocksOfTexts 1 (textsFrom 0 pages)))
      ∧ (blocksOfTexts 1 (textsFrom 0 pages)).length = pages.length
      ∧ ∀ i : Nat, (blocksOfTexts 1 (textsFrom 0 pages))[i]?
          = Option.map (pageBlock (1 + i)) (textsFrom 0 pages)[i]? := by
  rw [extract_remote_eq hrem] at hok ⊢
  rcases remoteRun_ok hok with ⟨hn, blocks, hp, hw⟩
  rcases processPagesFrom_ok hp with ⟨hbs, _⟩
  refine ⟨hn, ?_, ?_, ?_⟩
  · rw [hw, hbs]
  · rw [blocksOfTexts_length, textsFrom_length]
  · intro i
    rw [blocksOfTexts_get]

/-- Concrete two-page environment for the C1 witness; the second page's
remote call raises, so its text is the error-marker string, which still
occupies block 2. -/
def c1pages : List PageCall :=
  [(Except.ok ['h', 'i'], Except.ok ['h', 'i']),
   (Except.error ['b', 'o', 'o', 'm'], Except.error ['b', 'o', 'o', 'm'])]

theorem claim_C1_witness :
    2 = c1pages.length
      ∧ (extract_pdf_text_with_mode PStr.claude PStr.claude true Fmt.markdown false c1pages
          SpacyOutcome.importMissing).written
        = some (joinBlanks (blocksOfTexts 1 (textsFrom 0 c1pages)))
      ∧ (blocksOfTexts 1 (textsFrom 0 c1pages)).length = c1pages.length
      ∧ ∀ i : Nat, (blocksOfTexts 1 (textsFrom 0 c1pages))[i]?
          = Option.map (pageBlock (1 + i)) (textsFrom 0 c1pages)[i]? :=
  claim_C1 PStr.claude PStr.claude true Fmt.markdown false c1pages SpacyOutcome.importMissing 2
    (by decide) (by decide)

/-- C2: if, in a remote-mode run, some page's text is classified as an error,
then extract_pdf_text_with_mode raises a RuntimeError whose message contains
the offending 1-based page number and the backend's error text, every page
before the offending one was clean, and nothing is written to the output
path or to the plain output path. -/
theorem claim_C2 (mode provider : PStr) (apiKey : Bool) (fmt : Fmt)
    (plainRequested : Bool) (pages : List PageCall) (sp : SpacyOutcome)
    (hrem : isRemoteBranch mode provider) (hkey : apiKey = true)
    (hbad : ∃ t ∈ textsFrom 0 pages, contains_api_error t = true) :
    ∃ k t,
      (extract_pdf_text_with_mode mode provider apiKey fmt plainRequested pages sp).result
          = Except.error (PyError.runtimeError (runtimeMsg k t))
        ∧ (extract_pdf_text_with_mode mode provider apiKey fmt plainRequested pages sp).written
          = none
        ∧ (extract_pdf_text_with_mode mode provider apiKey fmt plainRequested pages
            sp).plainWritten = none
        ∧ contains_api_error t = true
        ∧ 1 ≤ k
        ∧ (textsFrom 0 pages)[k - 1]? = some t
        ∧ (∀ j < k - 1, ∃ u, (textsFrom 0 pages)[j]? = some u
            ∧ contains_api_error u = false)
        ∧ natToChars k <:+: runtimeMsg k t
        ∧ t <:+: runtimeMsg k t := by
  rcases processPagesFrom_error_of_exists hbad with ⟨k, t, hp⟩
  rcases processPagesFrom_err hp with ⟨hct, hk1, hidx, hbefore⟩
  have hrw := remoteRun_err fmt plainRequested hp hkey
  refine ⟨k, t, ?_, ?_, ?_, hct, by omega, by simpa using hidx, by simpa using hbefore, ?_, ?_⟩
  · rw [extract_remote_eq hrem, hrw]
  · rw [extract_remote_eq hrem, hrw]
  · rw [extract_remote_eq hrem, hrw]
  · exact ⟨chRunPre, chRunMid ++ t, by simp [runtimeMsg]⟩
  · exact ⟨chRunPre ++ natToChars k ++ chRunMid, [], by simp [runtimeMsg]⟩

/-- Concrete two-page environment for the C2 witness; page 2 returns a rate
limit error payload. -/
def c2pages : List PageCall :=
  [(Except.ok ['h', 'i'], Except.ok ['h', 'i']), (Except.ok chRateLimit, Except.ok [])]

theorem claim_C2_witness :
    ∃ k t,
      (extract_pdf_text_with_mode PStr.gemini PStr.claude true Fmt.markdown false c2pages
          SpacyOutcome.importMissing).result
          = Except.error (PyError.runtimeError (runtimeMsg k t))
        ∧ (extract_pdf_text_with_mode PStr.gemini PStr.claude true Fmt.markdown false c2pages
            SpacyOutcome.importMissing).written = none
        ∧ (extract_pdf_text_with_mode PStr.gemini PStr.claude true Fmt.markdown false c2pages
            SpacyOutcome.importMissing).plainWritten = none
        ∧ contains_api_error t = true
        ∧ 1 ≤ k
        ∧ (textsFrom 0 c2pages)[k - 1]? = some t
        ∧ (∀ j < k - 1, ∃ u, (textsFrom 0 c2pages)[j]? = some u
            ∧ contains_api_error u = false)
        ∧ natToChars k <:+: runtimeMsg k t
        ∧ t <:+: runtimeMsg k t :=
  claim_C2 PStr.gemini PStr.claude true Fmt.markdown false c2pages SpacyOutcome.importMissing
    (by decide) rfl (by decide)

theorem injectStage_orig_tmp {fl : Flags} {env : DocEnv} {fs : DocFS}
    (how : fl.overwrite = true) (htmp : fs.tmp = none)
    (hfail : ∀ b, env.injectOut ≠ InjectOutcome.ok b) :
    (injectStage fl env fs).1.orig = fs.orig ∧ (injectStage fl env fs).1.tmp = none := by
  unfold injectStage
  by_cases hso : fl.skip_ocr = true
  · rw [if_pos hso]
    exact ⟨rfl, htmp⟩
  · rw [if_neg hso]
    rcases hio : env.injectOut with b | p | p
    · exact absurd hio (hfail b)
    · simp [how]
    · simp [how]

theorem extractStage_orig_tmp {fl : Flags} {env : DocEnv} {fs : DocFS}
    (how : fl.overwrite = true) (htmp : fs.tmp = none)
    (hfail : ∀ b, env.injectOut ≠ InjectOutcome.ok b) :
    (extractStage fl env fs).1.orig = fs.orig ∧ (extractStage fl env fs).1.tmp = none := by
  unfold extractStage
  rcases heo : extract_pdf_text_with_mode fl.mode PStr.claude fl.apiKey fl.fmt false
      env.pages env.sp with ⟨w, pw, r⟩
  rcases w with _ | c <;> rcases r with err | nn
  · simp [handlerCleanup, how]
  · exact injectStage_orig_tmp how htmp hfail
  · simp [handlerCleanup, how]
  · exact @injectStage_orig_tmp fl env { fs with mainOut := some (some c) } how htmp hfail

/-- C9: in overwrite mode, when the searchable-PDF synthesis does not return
successfully (it raises or is interrupted), the original source PDF at the
target path keeps its pre-run bytes and no temporary .pdf.tmp file remains:
the synthesizer writes only to the tmp path, os.replace runs only after a
successful inject_text_to_pdf, and both handlers delete the tmp file. -/
theorem claim_C9 (fl : Flags) (env : DocEnv) (fs : DocFS)
    (how : fl.overwrite = true) (htmp : fs.tmp = none)
    (hfail : ∀ b, env.injectOut ≠ InjectOutcome.ok b) :
    (processDoc fl env fs).1.orig = fs.orig ∧ (processDoc fl env fs).1.tmp = none := by
  unfold processDoc
  by_cases h1 : skipByMain fl fs = true
  · rw [if_pos h1]
    exact ⟨rfl, htmp⟩
  · rw [if_neg h1]
    by_cases h2 : skipBySearchable fl fs = true
    · rw [if_pos h2]
      exact ⟨rfl, htmp⟩
    · rw [if_neg h2]
      by_cases h3 : fl.ocr_only = true
      · rw [if_pos h3]
        exact injectStage_orig_tmp how htmp hfail
      · rw [if_neg h3]
        exact extractStage_orig_tmp how htmp hfail

/-- Environment for the C9 witness: the synthesis raises after leaving a
partial tmp file. -/
def c9env : DocEnv :=
  ⟨[(Except.ok ['h', 'i'], Except.ok ['h', 'i'])], SpacyOutcome.importMissing,
    InjectOutcome.fail (some 3)⟩

/-- Flags for the C9 witness: overwrite mode. -/
def c9flags : Flags := ⟨true, true, PStr.claude, Fmt.markdown, false, false, true⟩

/-- Filesystem for the C9 witness. -/
def c9fs : DocFS := ⟨7, none, none, none⟩

theorem claim_C9_witness :
    (processDoc c9flags c9env c9fs).1.orig = c9fs.orig
      ∧ (processDoc c9flags c9env c9fs).1.tmp = none :=
  claim_C9 c9flags c9env c9fs rfl rfl
    (fun b h => by cases h)

/-- Filesystem state for C7: the transcript exists and contains a rate-limit
error signature, and the *_searchable.pdf also exists. -/
def c7fs : DocFS := ⟨0, some (some chRateLimit), some 1, none⟩

/-- Flags for C7: defaults of batch_process — skip_existing on, no
overwrite, neither ocr_only nor skip_ocr. -/
def c7flags : Flags := ⟨false, true, PStr.claude, Fmt.markdown, false, false, true⟩

/-- Environment for C7: extraction and synthesis would both succeed. -/
def c7env : DocEnv :=
  ⟨[(Except.ok ['o', 'k'], Except.ok ['o', 'k'])], SpacyOutcome.importMissing,
    InjectOutcome.ok 1⟩

/-- C7: evaluation at the failing input.  The estimation pass does re-queue
and flag the document whose transcript matches an error signature
(batch.py 47-62), but the per-document pass then skips it anyway, because
after falling through the error-recovery branch (lines 254-256, which even
prints that the file will be reprocessed) the searchable-PDF existence check
of lines 267-270 fires and the loop continues to the next document — the
document is never reprocessed, contradicting the claim.  Removing the
searchable PDF from the same state makes the document process, confirming
the skip comes from that check. -/
theorem claim_C7 :
    estimateShouldProcess true c7fs.mainOut = (true, true)
      ∧ contains_api_error chRateLimit = true
      ∧ processDoc c7flags c7env c7fs = (c7fs, DocResult.skipped)
      ∧ (processDoc c7flags c7env { c7fs with searchable := none }).2
          = DocResult.processed := by
  refine ⟨by decide, by decide, by decide, by decide⟩

theorem injectStage_ne_skipped (fl : Flags) (env : DocEnv) (fs : DocFS) :
    (injectStage fl env fs).2 ≠ DocResult.skipped := by
  unfold injectStage
  by_cases hso : fl.skip_ocr = true
  · rw [if_pos hso]
    simp
  · rw [if_neg hso]
    rcases env.injectOut with b | p | p <;> by_cases hov : fl.overwrite = true <;>
      simp [hov]

theorem injectStage_mainOut (fl : Flags) (env : DocEnv) (fs : DocFS) :
    (injectStage fl env fs).1.mainOut = fs.mainOut := by
  unfold injectStage
  by_cases hso : fl.skip_ocr = true
  · rw [if_pos hso]
  · rw [if_neg hso]
    rcases env.injectOut with b | p | p <;> by_cases hov : fl.overwrite = true <;>
      simp [hov]

theorem extractStage_ne_skipped (fl : Flags) (env : DocEnv) (fs : DocFS) :
    (extractStage fl env fs).2 ≠ DocResult.skipped := by
  unfold extractStage
  rcases heo : extract_pdf_text_with_mode fl.mode PStr.claude fl.apiKey fl.fmt false
      env.pages env.sp with ⟨w, pw, r⟩
  rcases w with _ | c <;> rcases r with e | n
  · simp
  · exact injectStage_ne_skipped fl env fs
  · simp
  · exact injectStage_ne_skipped fl env _

theorem processDoc_skipped {fl : Flags} {env : DocEnv} {fs fs' : DocFS}
    (h : processDoc fl env fs = (fs', DocResult.skipped)) :
    fs' = fs ∧ (skipByMain fl fs = true ∨ skipBySearchable fl fs = true) := by
  unfold processDoc at h
  by_cases hA : skipByMain fl fs = true
  · rw [if_pos hA] at h
    injection h with hfs _
    exact ⟨hfs.symm, Or.inl hA⟩
  rw [if_neg hA] at h
  by_cases hB : skipBySearchable fl fs = true
  · rw [if_pos hB] at h
    injection h with hfs _
    exact ⟨hfs.symm, Or.inr hB⟩
  rw [if_neg hB] at h
  by_cases hO : fl.ocr_only = true
  · rw [if_pos hO] at h
    exact absurd (congrArg Prod.snd h) (injectStage_ne_skipped fl env fs)
  · rw [if_neg hO] at h
    exact absurd (congrArg Prod.snd h) (extractStage_ne_skipped fl env fs)

theorem processDoc_skip_of_checks {fl : Flags} {fs : DocFS} (env : DocEnv)
    (h : skipByMain fl fs = true ∨ skipBySearchable fl fs = true) :
    processDoc fl env fs = (fs, DocResult.skipped) := by
  unfold processDoc
  by_cases hA : skipByMain fl fs = true
  · rw [if_pos hA]
  · rw [if_neg hA]
    rcases h with h | h
    · exact absurd h hA
    · rw [if_pos h]

theorem extractStage_processed_stable {fl : Flags} {env : DocEnv} {fs fs' : DocFS}
    (hse : fl.skip_existing = true) (ho : fl.ocr_only = false)
    (hp : extractStage fl env fs = (fs', DocResult.processed)) :
    skipByMain fl fs' = true := by
  have heq : extract_pdf_text_with_mode fl.mode PStr.claude fl.apiKey fl.fmt false
      env.pages env.sp = remoteRun fl.apiKey fl.fmt false env.pages :=
    extract_remote_eq (by cases fl.mode <;> decide) fl.apiKey fl.fmt false env.pages env.sp
  unfold extractStage at hp
  rw [heq] at hp
  rcases hrr : remoteRun fl.apiKey fl.fmt false env.pages with ⟨w, pw, r⟩
  rw [hrr] at hp
  rcases r with e | n
  · rcases w with _ | c <;> exact absurd (congrArg Prod.snd hp) (by simp)
  · have hres : (remoteRun fl.apiKey fl.fmt false env.pages).result = Except.ok n := by
      rw [hrr]
    rcases remoteRun_ok hres with ⟨_, blocks, hpp, hwr⟩
    rw [hrr] at hwr
    rcases processPagesFrom_ok hpp with ⟨hbs, hclean⟩
    have hcae : contains_api_error (joinBlanks blocks) = false := by
      rw [hbs]
      exact transcript_clean hclean
    rcases w with _ | c
    · cases hwr
    · injection hwr with hwc
      have hp' : injectStage fl env { fs with mainOut := some (some c) }
          = (fs', DocResult.processed) := hp
      have h1 : (injectStage fl env { fs with mainOut := some (some c) }).1 = fs' :=
        congrArg Prod.fst hp'
      have hmo : fs'.mainOut = some (some c) := by
        rw [← h1, injectStage_mainOut]
      unfold skipByMain
      rw [hmo, ho, hse]
      simp [hwc, hcae]

theorem processDoc_processed_stable {fl : Flags} {env : DocEnv} {fs fs' : DocFS}
    (hse : fl.skip_existing = true)
    (h1 : ¬(fl.ocr_only = true ∧ fl.overwrite = true))
    (h2 : ¬(fl.ocr_only = true ∧ fl.skip_ocr = true))
    (hp : processDoc fl env fs = (fs', DocResult.processed)) :
    skipByMain fl fs' = true ∨ skipBySearchable fl fs' = true := by
  unfold processDoc at hp
  by_cases hA : skipByMain fl fs = true
  · rw [if_pos hA] at hp
    injection hp with _ hres
    cases hres
  rw [if_neg hA] at hp
  by_cases hB : skipBySearchable fl fs = true
  · rw [if_pos hB] at hp
    injection hp with _ hres
    cases hres
  rw [if_neg hB] at hp
  by_cases hO : fl.ocr_only = true
  · rw [if_pos hO] at hp
    have hov : fl.overwrite = false := by
      cases hov : fl.overwrite
      · rfl
      · exact absurd ⟨hO, hov⟩ h1
    have hso : fl.skip_ocr = false := by
      cases hso : fl.skip_ocr
      · rfl
      · exact absurd ⟨hO, hso⟩ h2
    unfold injectStage at hp
    rw [if_neg (by simp [hso])] at hp
    rcases hio : env.injectOut with b | p | p
    · rw [hio] at hp
      dsimp only at hp
      rw [if_neg (by simp [hov])] at hp
      injection hp with hfs hres
      right
      rw [← hfs]
      simp [skipBySearchable, hse, hov]
    · rw [hio] at hp
      dsimp only at hp
      rw [if_neg (by simp [hov])] at hp
      injection hp with _ hres
      cases hres
    · rw [hio] at hp
      dsimp only at hp
      rw [if_neg (by simp [hov])] at hp
      injection hp with _ hres
      cases hres
  · rw [if_neg hO] at hp
    have ho' : fl.ocr_only = false := by
      cases h : fl.ocr_only
      · rfl
      · exact absurd h hO
    exact Or.inl (extractStage_processed_stable hse ho' hp)

theorem batchRun_cons (fl : Flags) (d : DocEnv × DocFS) (rest : List (DocEnv × DocFS)) :
    batchRun fl (d :: rest)
      = match processDoc fl d.1 d.2 with
        | (fs', DocResult.interrupted) => ⟨fs' :: rest.map Prod.snd, 0, 0, 0, true⟩
        | (fs', DocResult.skipped) =>
          ⟨fs' :: (batchRun fl rest).states, (batchRun fl rest).processed,
            (batchRun fl rest).skipped + 1, (batchRun fl rest).errors,
            (batchRun fl rest).interrupted⟩
        | (fs', DocResult.processed) =>
          ⟨fs' :: (batchRun fl rest).states, (batchRun fl rest).processed + 1,
            (batchRun fl rest).skipped, (batchRun fl rest).errors,
            (batchRun fl rest).interrupted⟩
        | (fs', DocResult.errored) =>
          ⟨fs' :: (batchRun fl rest).states, (batchRun fl rest).processed,
            (batchRun fl rest).skipped, (batchRun fl rest).errors + 1,
            (batchRun fl rest).interrupted⟩ := rfl

theorem batchRun_cons_skipped {fl : Flags} {d : DocEnv × DocFS}
    {rest : List (DocEnv × DocFS)} {fs' : DocFS}
    (h : processDoc fl d.1 d.2 = (fs', DocResult.skipped)) :
    batchRun fl (d :: rest)
      = ⟨fs' :: (batchRun fl rest).states, (batchRun fl rest).processed,
          (batchRun fl rest).skipped + 1, (batchRun fl rest).errors,
          (batchRun fl rest).interrupted⟩ := by
  rw [batchRun_cons, h]

theorem batchRun_cons_processed {fl : Flags} {d : DocEnv × DocFS}
    {rest : List (DocEnv × DocFS)} {fs' : DocFS}
    (h : processDoc fl d.1 d.2 = (fs', DocResult.processed)) :
    batchRun fl (d :: rest)
      = ⟨fs' :: (batchRun fl rest).states, (batchRun fl rest).processed + 1,
          (batchRun fl rest).skipped, (batchRun fl rest).errors,
          (batchRun fl rest).interrupted⟩ := by
  rw [batchRun_cons, h]

theorem batchRun_cons_errored {fl : Flags} {d : DocEnv × DocFS}
    {rest : List (DocEnv × DocFS)} {fs' : DocFS}
    (h : processDoc fl d.1 d.2 = (fs', DocResult.errored)) :
    batchRun fl (d :: rest)
      = ⟨fs' :: (batchRun fl rest).states, (batchRun fl rest).processed,
          (batchRun fl rest).skipped, (batchRun fl rest).errors + 1,
          (batchRun fl rest).interrupted⟩ := by
  rw [batchRun_cons, h]

theorem batchRun_cons_interrupted {fl : Flags} {d : DocEnv × DocFS}
    {rest : List (DocEnv × DocFS)} {fs' : DocFS}
    (h : processDoc fl d.1 d.2 = (fs', DocResult.interrupted)) :
    batchRun fl (d :: rest) = ⟨fs' :: rest.map Prod.snd, 0, 0, 0, true⟩ := by
  rw [batchRun_cons, h]

/-- C8, counterexample: with skip_existing on, a first run of the batch loop
in OCR-only overwrite mode completes with no errors and no interrupt, yet
the second run over the resulting states processes the document again (and
overwrites the original a second time): in OCR-only mode the transcript
check is bypassed and in overwrite mode the searchable-PDF check never
fires, so nothing makes the second run skip. -/
theorem claim_C8_counterexample :
    (batchRun ⟨true, true, PStr.claude, Fmt.markdown, true, false, false⟩
        [(⟨[], SpacyOutcome.importMissing, InjectOutcome.ok 1⟩, ⟨0, none, none, none⟩)]).errors
        = 0
      ∧ (batchRun ⟨true, true, PStr.claude, Fmt.markdown, true, false, false⟩
          [(⟨[], SpacyOutcome.importMissing, InjectOutcome.ok 1⟩,
            ⟨0, none, none, none⟩)]).interrupted = false
      ∧ (batchRun ⟨true, true, PStr.claude, Fmt.markdown, true, false, false⟩
          [(⟨[], SpacyOutcome.importMissing, InjectOutcome.ok 1⟩,
            ⟨0, none, none, none⟩)]).states = [⟨1, none, none, none⟩]
      ∧ (batchRun ⟨true, true, PStr.claude, Fmt.markdown, true, false, false⟩
          [(⟨[], SpacyOutcome.importMissing, InjectOutcome.ok 1⟩,
            ⟨1, none, none, none⟩)]).processed = 1 := by
  refine ⟨by decide, by decide, by decide, by decide⟩

/-- C8, amended: batch_process is idempotent under skip_existing provided
the configuration writes the outputs that its own skip checks consult: not
OCR-only-with-overwrite (nothing but the original is written, and the
original's path never makes the searchable check fire) and not
OCR-only-with-skip_ocr (a combination the CLI rejects, under which nothing
at all is written).  Under those conditions, a first run that completes
with no errors and no interrupt leaves every document in a state that the
second run skips: every processed document ends with an error-free
transcript (for the remote modes — the only ones reachable from
batch_process — a transcript assembled from pages that all passed the
classifier is itself classifier-clean) or with its searchable PDF in
place, so the second run processes zero documents, reports zero errors, and
leaves every file state unchanged. -/
theorem claim_C8_amended (fl : Flags) (docs docs2 : List (DocEnv × DocFS))
    (hse : fl.skip_existing = true)
    (h1 : ¬(fl.ocr_only = true ∧ fl.overwrite = true))
    (h2 : ¬(fl.ocr_only = true ∧ fl.skip_ocr = true))
    (herr : (batchRun fl docs).errors = 0)
    (hint : (batchRun fl docs).interrupted = false)
    (hstates : docs2.map Prod.snd = (batchRun fl docs).states) :
    (batchRun fl docs2).processed = 0 ∧ (batchRun fl docs2).errors = 0
      ∧ (batchRun fl docs2).states = (batchRun fl docs).states := by
  induction docs generalizing docs2 with
  | nil =>
    have h0 : List.map Prod.snd docs2 = [] := hstates
    cases docs2 with
    | nil => simp [batchRun]
    | cons a l => cases h0
  | cons d rest ih =>
    rcases hpd : processDoc fl d.1 d.2 with ⟨fs', r⟩
    cases r
    case interrupted =>
      rw [batchRun_cons_interrupted hpd] at hint
      cases hint
    case errored =>
      rw [batchRun_cons_errored hpd] at herr
      dsimp only at herr
      omega
    case skipped =>
      rw [batchRun_cons_skipped hpd] at herr hint hstates ⊢
      dsimp only at herr hint hstates ⊢
      rcases docs2 with _ | ⟨d2, rest2⟩
      · cases hstates
      · simp only [List.map_cons, List.cons.injEq] at hstates
        rcases hstates with ⟨hd2, hrest2⟩
        rcases processDoc_skipped hpd with ⟨hfs, hchecks⟩
        have hskip2 : processDoc fl d2.1 d2.2 = (d2.2, DocResult.skipped) := by
          rw [hd2, hfs]
          exact processDoc_skip_of_checks d2.1 hchecks
        rw [batchRun_cons_skipped hskip2]
        dsimp only
        rcases ih rest2 herr hint hrest2 with ⟨hp2, he2, hs2⟩
        exact ⟨hp2, he2, by rw [hs2, hd2]⟩
    case processed =>
      rw [batchRun_cons_processed hpd] at herr hint hstates ⊢
      dsimp only at herr hint hstates ⊢
      rcases docs2 with _ | ⟨d2, rest2⟩
      · cases hstates
      · simp only [List.map_cons, List.cons.injEq] at hstates
        rcases hstates with ⟨hd2, hrest2⟩
        have hchecks := processDoc_processed_stable hse h1 h2 hpd
        have hskip2 : processDoc fl d2.1 d2.2 = (d2.2, DocResult.skipped) := by
          rw [hd2]
          exact processDoc_skip_of_checks d2.1 hchecks
        rw [batchRun_cons_skipped hskip2]
        dsimp only
        rcases ih rest2 herr hint hrest2 with ⟨hp2, he2, hs2⟩
        exact ⟨hp2, he2, by rw [hs2, hd2]⟩

/-- Environment and single document for the C8 witness: default flags
(skip_existing, no overwrite, claude mode), an empty source document. -/
def c8wflags : Flags := ⟨false, true, PStr.claude, Fmt.markdown, false, false, true⟩

/-- Document list of the first C8 witness run. -/
def c8wdocs : List (DocEnv × DocFS) :=
  [(⟨[], SpacyOutcome.importMissing, InjectOutcome.ok 5⟩, ⟨0, none, none, none⟩)]

/-- Document list of the second C8 witness run: the first run's final state
paired with a fresh environment. -/
def c8wdocs2 : List (DocEnv × DocFS) :=
  [(⟨[], SpacyOutcome.importMissing, InjectOutcome.ok 6⟩, ⟨0, some (some []), some 5, none⟩)]

theorem claim_C8_amended_witness :
    (batchRun c8wflags c8wdocs2).processed = 0 ∧ (batchRun c8wflags c8wdocs2).errors = 0
      ∧ (batchRun c8wflags c8wdocs2).states = (batchRun c8wflags c8wdocs).states :=
  claim_C8_amended c8wflags c8wdocs c8wdocs2 rfl (by decide) (by decide) (by decide)
    (by decide) (by decide)
